import Mathlib

/-!
Verification of the migration engine in `metadata/data_loader.py` and
`metadata/data_loader_ext.py`: identifier normalization, checkpoint store,
offset/keyset pagination loops, schema translation and bulk insert.
Python strings are embedded as `List Char`, dict-shaped rows as ordered
association lists, and the fallible network operations as environments
that decide, per call, whether the operation (after its retries)
ultimately succeeds or fails.
-/

/-! ### Character helpers

`normalize_col` uses the regex class `[^a-zA-Z0-9]`, which is exactly the
complement of `Char.isAlphanum`, and Python's `str.lower`, which on the
characters that survive the substitution (ASCII alphanumerics and `_`)
agrees with `Char.toLower`. -/

theorem char_toNat_ofNat_valid {n : Nat} (h : n.isValidChar) :
    (Char.ofNat n).toNat = n := by
  rw [Char.ofNat, dif_pos h]
  rfl

theorem uint32_le_iff_toNat_le {a b : UInt32} : a ≤ b ↔ a.toNat ≤ b.toNat := by
  rw [UInt32.le_def, BitVec.le_def]
  exact Iff.rfl

theorem char_isAlphanum_iff (c : Char) :
    c.isAlphanum = true ↔
      (65 ≤ c.toNat ∧ c.toNat ≤ 90) ∨ (97 ≤ c.toNat ∧ c.toNat ≤ 122) ∨
        (48 ≤ c.toNat ∧ c.toNat ≤ 57) := by
  have h48 : ((48 : UInt32)).toNat = 48 := by decide
  have h57 : ((57 : UInt32)).toNat = 57 := by decide
  have h65 : ((65 : UInt32)).toNat = 65 := by decide
  have h90 : ((90 : UInt32)).toNat = 90 := by decide
  have h97 : ((97 : UInt32)).toNat = 97 := by decide
  have h122 : ((122 : UInt32)).toNat = 122 := by decide
  simp only [Char.isAlphanum, Char.isAlpha, Char.isUpper, Char.isLower, Char.isDigit,
    Bool.or_eq_true, Bool.and_eq_true, decide_eq_true_eq, ge_iff_le,
    uint32_le_iff_toNat_le, h48, h57, h65, h90, h97, h122]
  show ((65 ≤ c.toNat ∧ c.toNat ≤ 90) ∨ (97 ≤ c.toNat ∧ c.toNat ≤ 122)) ∨
      (48 ≤ c.toNat ∧ c.toNat ≤ 57) ↔ _
  tauto

theorem char_toLower_spec (c : Char) :
    (65 ≤ c.toNat ∧ c.toNat ≤ 90 ∧ (Char.toLower c).toNat = c.toNat + 32) ∨
      (¬(65 ≤ c.toNat ∧ c.toNat ≤ 90) ∧ Char.toLower c = c) := by
  rw [Char.toLower]
  by_cases h : c.toNat ≥ 65 ∧ c.toNat ≤ 90
  · rw [if_pos h]
    exact Or.inl ⟨h.1, h.2, char_toNat_ofNat_valid (Or.inl (by omega))⟩
  · rw [if_neg h]
    exact Or.inr ⟨h, rfl⟩

theorem char_eq_iff_toNat_eq {c d : Char} : c = d ↔ c.toNat = d.toNat := by
  constructor
  · intro h
    rw [h]
  · intro h
    have := congrArg Char.ofNat h
    rwa [Char.ofNat_toNat, Char.ofNat_toNat] at this

theorem char_alnum_ne_us {c : Char} (hc : c.isAlphanum = true) : c ≠ '_' := by
  intro h
  subst h
  simp at hc

theorem char_toLower_ne_us {c : Char} (hc : c ≠ '_') : Char.toLower c ≠ '_' := by
  have h95 : ('_').toNat = 95 := by decide
  rcases char_toLower_spec c with ⟨h1, h2, h3⟩ | ⟨_, h⟩
  · intro h
    rw [char_eq_iff_toNat_eq, h95] at h
    omega
  · rw [h]
    exact hc

theorem char_toLower_toLower (c : Char) :
    Char.toLower (Char.toLower c) = Char.toLower c := by
  rcases char_toLower_spec c with ⟨h1, h2, h3⟩ | ⟨_, h⟩
  · rcases char_toLower_spec (Char.toLower c) with ⟨g1, g2, _⟩ | ⟨_, g⟩
    · omega
    · exact g
  · rw [h]
    exact h

theorem char_toLower_alnum {c : Char} (hc : c.isAlphanum = true) :
    (Char.toLower c).isAlphanum = true := by
  rw [char_isAlphanum_iff] at hc ⊢
  rcases char_toLower_spec c with ⟨h1, h2, h3⟩ | ⟨_, h⟩
  · omega
  · rwa [h]

theorem char_ws_not_alnum {c : Char} (hc : c.isWhitespace = true) :
    c.isAlphanum = false := by
  have : c = ' ' ∨ c = '\t' ∨ c = '\r' ∨ c = '\n' := by
    simp only [Char.isWhitespace, Bool.or_eq_true, decide_eq_true_eq] at hc
    tauto
  rcases this with h | h | h | h <;> subst h <;> decide

/-! ### `normalize_col` (data_loader.py:67-69, data_loader_ext.py:70-72)

```python
def normalize_col(name):
    name = re.sub(r'[^a-zA-Z0-9]+', '_', name.strip()).lower()
    return re.sub(r'_+', '_', name).strip('_')[:63]
```

`subAux` is `re.sub(r'[^a-zA-Z0-9]+', '_', ·)`: each maximal run of
non-alphanumeric characters becomes a single `'_'` (the flag records
whether we are inside such a run).  `collapseAux` is `re.sub(r'_+', '_', ·)`.
`stripWS` is `str.strip()` (Python also strips a few extra Unicode space
characters; those are non-alphanumeric, and `coreNorm_eq_joinUS` below shows
the final result only depends on the alphanumeric words, so the difference
is invisible in the output).  `stripUS` is `str.strip('_')`, and `take 63`
is `[:63]`. -/

def subAux : Bool → List Char → List Char
  | _, [] => []
  | inRun, c :: cs =>
    if c.isAlphanum then c :: subAux false cs
    else if inRun then subAux true cs else '_' :: subAux true cs

def subNonAlnum (l : List Char) : List Char := subAux false l

def collapseAux : Bool → List Char → List Char
  | _, [] => []
  | prevUS, c :: cs =>
    if c = '_' then
      if prevUS then collapseAux true cs else '_' :: collapseAux true cs
    else c :: collapseAux false cs

def collapseUS (l : List Char) : List Char := collapseAux false l

def dropLeadUS (l : List Char) : List Char := l.dropWhile (fun c => c = '_')

def dropTrailUS (l : List Char) : List Char :=
  (l.reverse.dropWhile (fun c => c = '_')).reverse

def stripUS (l : List Char) : List Char := dropLeadUS (dropTrailUS l)

def stripWS (l : List Char) : List Char :=
  ((l.dropWhile Char.isWhitespace).reverse.dropWhile Char.isWhitespace).reverse

def normalizeCol (l : List Char) : List Char :=
  (stripUS (collapseUS (List.map Char.toLower (subNonAlnum (stripWS l))))).take 63

def headAlnum : List Char → Bool
  | [] => false
  | d :: _ => d.isAlphanum

/-- The maximal alphanumeric words of a string, in order.  `normalize_col`
provably equals lowercasing these words, joining them with single
underscores, and truncating to 63 characters. -/
def wordsOf : List Char → List (List Char)
  | [] => []
  | c :: cs =>
    if c.isAlphanum then
      if headAlnum cs then
        match wordsOf cs with
        | [] => [[c]]
        | w :: ws => (c :: w) :: ws
      else [c] :: wordsOf cs
    else wordsOf cs

def wordsLower (l : List Char) : List (List Char) :=
  (wordsOf l).map (List.map Char.toLower)

def joinUS : List (List Char) → List Char
  | [] => []
  | [w] => w
  | w :: ws => w ++ '_' :: joinUS ws

/-! ### Structure lemmas for the `normalize_col` pipeline -/

theorem dropWhile_append_singleton {α : Type} [DecidableEq α] (p : α → Bool) (xs : List α) (c : α) :
    (xs ++ [c]).dropWhile p =
      if xs.dropWhile p = [] then (if p c then [] else [c])
      else xs.dropWhile p ++ [c] := by
  induction xs with
  | nil => cases hpc : p c <;> simp [List.dropWhile, hpc]
  | cons x xs ih =>
    by_cases hx : p x
    · simpa [List.dropWhile_cons, hx] using ih
    · simp [List.dropWhile_cons, hx]

theorem dropTrailUS_nil : dropTrailUS [] = [] := rfl

theorem dropTrailUS_cons (c : Char) (m : List Char) :
    dropTrailUS (c :: m) =
      if dropTrailUS m = [] then (if c = '_' then [] else [c])
      else c :: dropTrailUS m := by
  unfold dropTrailUS
  rw [List.reverse_cons, dropWhile_append_singleton]
  by_cases hm : m.reverse.dropWhile (fun c => c = '_') = []
  · by_cases hc : c = '_' <;> simp [hm, hc]
  · by_cases hc : c = '_' <;> simp [hm, hc]

theorem dropTrailUS_eq_nil_iff (m : List Char) :
    dropTrailUS m = [] ↔ ∀ c ∈ m, c = '_' := by
  unfold dropTrailUS
  simp only [List.reverse_eq_nil_iff, List.dropWhile_eq_nil_iff, List.mem_reverse,
    decide_eq_true_eq]

theorem dropTrailUS_head? {m : List Char} (h : dropTrailUS m ≠ []) :
    (dropTrailUS m).head? = m.head? := by
  cases m with
  | nil => rfl
  | cons c m' =>
    rw [dropTrailUS_cons] at h ⊢
    by_cases h1 : dropTrailUS m' = []
    · rw [if_pos h1] at h ⊢
      by_cases hc : c = '_'
      · rw [if_pos hc] at h
        exact absurd rfl h
      · rw [if_neg hc]
        rfl
    · rw [if_neg h1]
      rfl

theorem dropLeadUS_cons_ne {c : Char} (m : List Char) (hc : c ≠ '_') :
    dropLeadUS (c :: m) = c :: m := by
  simp [dropLeadUS, List.dropWhile_cons, hc]

theorem dropLeadUS_cons_us (m : List Char) : dropLeadUS ('_' :: m) = dropLeadUS m := by
  simp [dropLeadUS, List.dropWhile_cons]

theorem dropLeadUS_of_head_ne {m : List Char} (h : m.head? ≠ some '_') :
    dropLeadUS m = m := by
  cases m with
  | nil => rfl
  | cons c m' =>
    refine dropLeadUS_cons_ne m' ?_
    intro hc
    exact h (by rw [hc]; rfl)

theorem collapseAux_cons_ne {c : Char} (b : Bool) (m : List Char) (hc : c ≠ '_') :
    collapseAux b (c :: m) = c :: collapseAux false m := by
  simp [collapseAux, hc]

theorem collapseUS_cons_us (m : List Char) :
    collapseUS ('_' :: m) = '_' :: collapseAux true m := by
  simp [collapseUS, collapseAux]

theorem collapseAux_true_cons_us (m : List Char) :
    collapseAux true ('_' :: m) = collapseAux true m := by
  simp [collapseAux]

theorem collapseAux_true_head? (m : List Char) :
    (collapseAux true m).head? ≠ some '_' := by
  induction m with
  | nil => simp [collapseAux]
  | cons c m' ih =>
    by_cases hc : c = '_'
    · rw [hc, collapseAux_true_cons_us]
      exact ih
    · rw [collapseAux_cons_ne true m' hc]
      simp only [List.head?_cons]
      intro h
      exact hc (by injection h)

theorem collapseAux_of_head_ne {m : List Char} (h : m.head? ≠ some '_') :
    collapseAux true m = collapseAux false m := by
  cases m with
  | nil => rfl
  | cons c m' =>
    have hc : c ≠ '_' := by
      intro hc
      exact h (by rw [hc]; rfl)
    rw [collapseAux_cons_ne true m' hc, collapseAux_cons_ne false m' hc]

theorem subAux_cons_alnum {c : Char} (b : Bool) (m : List Char)
    (hc : c.isAlphanum = true) : subAux b (c :: m) = c :: subAux false m := by
  cases b <;> simp [subAux, hc]

theorem subAux_false_cons_not {c : Char} (m : List Char) (hc : ¬c.isAlphanum = true) :
    subAux false (c :: m) = '_' :: subAux true m := by
  simp [subAux, hc]

theorem subAux_true_cons_not {c : Char} (m : List Char) (hc : ¬c.isAlphanum = true) :
    subAux true (c :: m) = subAux true m := by
  simp [subAux, hc]

theorem wordsOf_cons_not_alnum {c : Char} (cs : List Char) (hc : ¬c.isAlphanum = true) :
    wordsOf (c :: cs) = wordsOf cs := by
  simp [wordsOf, hc]

theorem wordsOf_cons_alnum_nothead {c : Char} (cs : List Char)
    (hc : c.isAlphanum = true) (hd : ¬headAlnum cs = true) :
    wordsOf (c :: cs) = [c] :: wordsOf cs := by
  rw [wordsOf, if_pos hc, if_neg hd]

theorem wordsOf_cons_alnum_head {c : Char} (cs : List Char)
    (hc : c.isAlphanum = true) (hd : headAlnum cs = true) {w : List Char}
    {ws : List (List Char)} (hw : wordsOf cs = w :: ws) :
    wordsOf (c :: cs) = (c :: w) :: ws := by
  rw [wordsOf, if_pos hc, if_pos hd, hw]

theorem wordsOf_singleton_alnum {c : Char} (hc : c.isAlphanum = true) :
    wordsOf [c] = [[c]] := by
  rw [wordsOf_cons_alnum_nothead [] hc (by simp [headAlnum])]
  rfl

theorem wordsOf_ne_nil_of_alnum {c : Char} (cs : List Char) (hc : c.isAlphanum = true) :
    wordsOf (c :: cs) ≠ [] := by
  rw [wordsOf, if_pos hc]
  by_cases hd : headAlnum cs = true
  · rw [if_pos hd]
    cases hw : wordsOf cs <;> simp
  · rw [if_neg hd]
    simp

theorem wordsOf_ne_nil_of_headAlnum {cs : List Char} (hd : headAlnum cs = true) :
    wordsOf cs ≠ [] := by
  cases cs with
  | nil => simp [headAlnum] at hd
  | cons d cs' => exact wordsOf_ne_nil_of_alnum cs' hd

theorem wordsOf_mem_ne_nil : ∀ (l : List Char), ∀ w ∈ wordsOf l, w ≠ [] := by
  intro l
  induction l with
  | nil => intro w hw; simp [wordsOf] at hw
  | cons c cs ih =>
    intro w hw
    by_cases hc : c.isAlphanum = true
    · by_cases hd : headAlnum cs = true
      · cases hwds : wordsOf cs with
        | nil => exact absurd hwds (wordsOf_ne_nil_of_headAlnum hd)
        | cons w0 ws0 =>
          rw [wordsOf_cons_alnum_head cs hc hd hwds] at hw
          rcases List.mem_cons.mp hw with h | h
          · simp [h]
          · exact ih w (by rw [hwds]; exact List.mem_cons_of_mem _ h)
      · rw [wordsOf_cons_alnum_nothead cs hc hd] at hw
        rcases List.mem_cons.mp hw with h | h
        · simp [h]
        · exact ih w h
    · rw [wordsOf_cons_not_alnum cs hc] at hw
      exact ih w hw

theorem wordsOf_mem_alnum :
    ∀ (l : List Char), ∀ w ∈ wordsOf l, ∀ c ∈ w, c.isAlphanum = true := by
  intro l
  induction l with
  | nil => intro w hw; simp [wordsOf] at hw
  | cons c cs ih =>
    intro w hw a ha
    by_cases hc : c.isAlphanum = true
    · by_cases hd : headAlnum cs = true
      · cases hwds : wordsOf cs with
        | nil => exact absurd hwds (wordsOf_ne_nil_of_headAlnum hd)
        | cons w0 ws0 =>
          rw [wordsOf_cons_alnum_head cs hc hd hwds] at hw
          rcases List.mem_cons.mp hw with h | h
          · subst h
            rcases List.mem_cons.mp ha with h' | h'
            · rwa [h']
            · exact ih w0 (by rw [hwds]; exact List.mem_cons_self _ _) a h'
          · exact ih w (by rw [hwds]; exact List.mem_cons_of_mem _ h) a ha
      · rw [wordsOf_cons_alnum_nothead cs hc hd] at hw
        rcases List.mem_cons.mp hw with h | h
        · subst h
          simp at ha
          rwa [ha]
        · exact ih w h a ha
    · rw [wordsOf_cons_not_alnum cs hc] at hw
      exact ih w hw a ha

theorem joinUS_cons_of_ne_nil (w : List Char) {ws : List (List Char)} (h : ws ≠ []) :
    joinUS (w :: ws) = w ++ '_' :: joinUS ws := by
  cases ws with
  | nil => exact absurd rfl h
  | cons w' t => rfl

theorem joinUS_eq_nil_iff {ws : List (List Char)} (h : ∀ w ∈ ws, w ≠ []) :
    joinUS ws = [] ↔ ws = [] := by
  cases ws with
  | nil => simp [joinUS]
  | cons w t =>
    cases t with
    | nil =>
      simp only [joinUS]
      have := h w (List.mem_cons_self _ _)
      simp [this]
    | cons w' t' =>
      simp only [joinUS]
      have := h w (List.mem_cons_self _ _)
      constructor
      · intro hj
        rcases List.append_eq_nil.mp hj with ⟨h1, _⟩
        exact absurd h1 this
      · intro hj
        exact absurd hj (by simp)

theorem joinUS_cons_cons (a : Char) (w : List Char) (ws : List (List Char)) :
    joinUS ((a :: w) :: ws) = a :: joinUS (w :: ws) := by
  cases ws with
  | nil => rfl
  | cons w' t => rfl

theorem collapseUS_cons_ne {c : Char} (m : List Char) (hc : c ≠ '_') :
    collapseUS (c :: m) = c :: collapseUS m :=
  collapseAux_cons_ne false m hc

theorem char_toLower_us : Char.toLower '_' = '_' := by decide

theorem wordsLower_ne_nil_mem {cs : List Char} :
    ∀ w ∈ wordsLower cs, w ≠ [] := by
  intro w hw
  rcases List.mem_map.mp hw with ⟨w', hw', rfl⟩
  intro hnil
  exact wordsOf_mem_ne_nil cs w' hw' (List.map_eq_nil_iff.mp hnil)

/-- Core of the `normalize_col` characterization: before the 63-character
truncation, the pipeline `strip('_') ∘ re.sub('_+','_') ∘ lower ∘
re.sub('[^a-zA-Z0-9]+','_')` produces exactly the lowercased maximal
alphanumeric words joined by single underscores. -/
theorem coreNorm_eq_joinUS (l : List Char) :
    stripUS (collapseUS (List.map Char.toLower (subAux false l))) =
      joinUS (wordsLower l) := by
  induction l with
  | nil => rfl
  | cons c cs ih =>
    by_cases hc : c.isAlphanum = true
    · -- alphanumeric head: it is kept (lowercased) by the substitution
      have hlc : Char.toLower c ≠ '_' := char_toLower_ne_us (char_alnum_ne_us hc)
      rw [subAux_cons_alnum false cs hc, List.map_cons, collapseUS_cons_ne _ hlc]
      unfold stripUS
      rw [dropTrailUS_cons]
      by_cases h0 : dropTrailUS (collapseUS (List.map Char.toLower (subAux false cs))) = []
      · rw [if_pos h0, if_neg hlc, dropLeadUS_cons_ne [] hlc]
        have hstrip : stripUS (collapseUS (List.map Char.toLower (subAux false cs))) = [] := by
          unfold stripUS
          rw [h0]
          rfl
        have hjoin : joinUS (wordsLower cs) = [] := by rw [← ih]; exact hstrip
        have hwnil : wordsLower cs = [] :=
          (joinUS_eq_nil_iff wordsLower_ne_nil_mem).mp hjoin
        have hwords : wordsOf cs = [] := List.map_eq_nil_iff.mp hwnil
        have hRHS : wordsOf (c :: cs) = [[c]] := by
          by_cases hd : headAlnum cs = true
          · exact absurd hwords (wordsOf_ne_nil_of_headAlnum hd)
          · rw [wordsOf_cons_alnum_nothead cs hc hd, hwords]
        rw [wordsLower, hRHS]
        rfl
      · rw [if_neg h0, dropLeadUS_cons_ne _ hlc]
        cases cs with
        | nil => exact absurd rfl h0
        | cons d cs' =>
          by_cases hd : d.isAlphanum = true
          · have hld : Char.toLower d ≠ '_' := char_toLower_ne_us (char_alnum_ne_us hd)
            have hheadY :
                (collapseUS (List.map Char.toLower (subAux false (d :: cs')))).head? =
                  some (Char.toLower d) := by
              rw [subAux_cons_alnum false cs' hd, List.map_cons, collapseUS_cons_ne _ hld]
              rfl
            have hheaddt :
                (dropTrailUS (collapseUS (List.map Char.toLower (subAux false (d :: cs'))))).head?
                  ≠ some '_' := by
              rw [dropTrailUS_head? h0, hheadY]
              intro hx
              exact hld (by injection hx)
            have hdty :
                dropTrailUS (collapseUS (List.map Char.toLower (subAux false (d :: cs')))) =
                  joinUS (wordsLower (d :: cs')) := by
              rw [← ih]
              unfold stripUS
              rw [dropLeadUS_of_head_ne hheaddt]
            rw [hdty]
            obtain ⟨w, ws, hwds⟩ : ∃ w ws, wordsOf (d :: cs') = w :: ws := by
              cases hx : wordsOf (d :: cs') with
              | nil => exact absurd hx (wordsOf_ne_nil_of_alnum cs' hd)
              | cons a b => exact ⟨a, b, rfl⟩
            simp only [wordsLower]
            rw [wordsOf_cons_alnum_head (d :: cs') hc hd hwds, hwds]
            simp only [List.map_cons]
            rw [joinUS_cons_cons]
          · -- the word after `c` is separated by a punctuation run
            have h1 : subAux false (d :: cs') = '_' :: subAux true cs' :=
              subAux_false_cons_not cs' hd
            have hYeq :
                collapseUS (List.map Char.toLower (subAux false (d :: cs'))) =
                  '_' :: collapseAux true (List.map Char.toLower (subAux true cs')) := by
              rw [h1, List.map_cons, char_toLower_us, collapseUS_cons_us]
            rw [hYeq] at h0 ⊢
            rw [dropTrailUS_cons] at h0 ⊢
            by_cases hz :
                dropTrailUS (collapseAux true (List.map Char.toLower (subAux true cs'))) = []
            · rw [if_pos hz, if_pos rfl] at h0
              exact absurd rfl h0
            · rw [if_neg hz] at h0 ⊢
              have hheadz :
                  (dropTrailUS (collapseAux true (List.map Char.toLower (subAux true cs')))).head?
                    ≠ some '_' := by
                rw [dropTrailUS_head? hz]
                exact collapseAux_true_head? _
              have hdtz :
                  dropTrailUS (collapseAux true (List.map Char.toLower (subAux true cs'))) =
                    joinUS (wordsLower (d :: cs')) := by
                rw [← ih]
                unfold stripUS
                rw [hYeq, dropTrailUS_cons, if_neg hz, dropLeadUS_cons_us,
                  dropLeadUS_of_head_ne hheadz]
              have hwne : wordsLower (d :: cs') ≠ [] := by
                intro hx
                rw [hx] at hdtz
                exact hz (by simpa [joinUS] using hdtz)
              have hwordsne : wordsOf (d :: cs') ≠ [] := by
                intro hx
                exact hwne (by rw [wordsLower, hx]; rfl)
              obtain ⟨w, ws, hwds⟩ : ∃ w ws, wordsOf (d :: cs') = w :: ws := by
                cases hx : wordsOf (d :: cs') with
                | nil => exact absurd hx hwordsne
                | cons a b => exact ⟨a, b, rfl⟩
              have hRHS : wordsOf (c :: d :: cs') = [c] :: wordsOf (d :: cs') :=
                wordsOf_cons_alnum_nothead (d :: cs') hc (by simpa [headAlnum] using hd)
              simp only [wordsLower] at hdtz ⊢
              rw [hdtz, hRHS]
              simp only [List.map_cons]
              rw [joinUS_cons_of_ne_nil _ (by simp [hwds])]
              rfl
    · -- non-alphanumeric head
      cases cs with
      | nil =>
        rw [subAux_false_cons_not [] hc]
        rw [wordsLower, wordsOf_cons_not_alnum [] hc]
        rfl
      | cons d cs' =>
        by_cases hd : d.isAlphanum = true
        · have h1 : subAux false (c :: d :: cs') = '_' :: subAux false (d :: cs') := by
            rw [subAux_false_cons_not _ hc, subAux_cons_alnum true cs' hd,
              subAux_cons_alnum false cs' hd]
          have hld : Char.toLower d ≠ '_' := char_toLower_ne_us (char_alnum_ne_us hd)
          have hX₀head : (List.map Char.toLower (subAux false (d :: cs'))).head? =
              some (Char.toLower d) := by
            rw [subAux_cons_alnum false cs' hd]
            rfl
          have hflag : collapseAux true (List.map Char.toLower (subAux false (d :: cs'))) =
              collapseUS (List.map Char.toLower (subAux false (d :: cs'))) :=
            collapseAux_of_head_ne (by rw [hX₀head]; intro hx; exact hld (by injection hx))
          rw [h1, List.map_cons, char_toLower_us, collapseUS_cons_us, hflag]
          unfold stripUS
          rw [dropTrailUS_cons]
          by_cases h0 : dropTrailUS (collapseUS (List.map Char.toLower (subAux false (d :: cs')))) = []
          · rw [if_pos h0, if_pos rfl]
            have hstrip : stripUS (collapseUS (List.map Char.toLower (subAux false (d :: cs')))) = [] := by
              unfold stripUS
              rw [h0]
              rfl
            simp only [wordsLower] at ih ⊢
            rw [wordsOf_cons_not_alnum _ hc, ← ih, hstrip]
            rfl
          · rw [if_neg h0, dropLeadUS_cons_us]
            have hheadY :
                (collapseUS (List.map Char.toLower (subAux false (d :: cs')))).head? =
                  some (Char.toLower d) := by
              rw [subAux_cons_alnum false cs' hd, List.map_cons, collapseUS_cons_ne _ hld]
              rfl
            have hheaddt :
                (dropTrailUS (collapseUS (List.map Char.toLower (subAux false (d :: cs'))))).head?
                  ≠ some '_' := by
              rw [dropTrailUS_head? h0, hheadY]
              intro hx
              exact hld (by injection hx)
            rw [dropLeadUS_of_head_ne hheaddt]
            have hdty :
                dropTrailUS (collapseUS (List.map Char.toLower (subAux false (d :: cs')))) =
                  joinUS (wordsLower (d :: cs')) := by
              rw [← ih]
              unfold stripUS
              rw [dropLeadUS_of_head_ne hheaddt]
            rw [hdty]
            simp only [wordsLower]
            rw [wordsOf_cons_not_alnum _ hc]
        · have h1 : subAux false (c :: d :: cs') = subAux false (d :: cs') := by
            rw [subAux_false_cons_not _ hc, subAux_true_cons_not cs' hd,
              subAux_false_cons_not cs' hd]
          rw [h1, ih]
          simp only [wordsLower]
          rw [wordsOf_cons_not_alnum _ hc]

theorem mem_takeWhile_prop {α : Type} (p : α → Bool) :
    ∀ (l : List α) (a : α), a ∈ l.takeWhile p → p a = true := by
  intro l
  induction l with
  | nil => intro a ha; simp [List.takeWhile] at ha
  | cons x xs ih =>
    intro a ha
    by_cases hx : p x = true
    · rw [List.takeWhile_cons_of_pos hx] at ha
      rcases List.mem_cons.mp ha with h | h
      · rwa [h]
      · exact ih a h
    · rw [List.takeWhile_cons_of_neg hx] at ha
      simp at ha

theorem wordsOf_nil_of_all_not {w : List Char} (h : ∀ a ∈ w, a.isAlphanum = false) :
    wordsOf w = [] := by
  induction w with
  | nil => rfl
  | cons a w' ih =>
    rw [wordsOf_cons_not_alnum w' (by simp [h a (List.mem_cons_self _ _)])]
    exact ih (fun b hb => h b (List.mem_cons_of_mem _ hb))

theorem wordsOf_append_not_alnum {w : List Char} (hw : ∀ a ∈ w, a.isAlphanum = false) :
    ∀ l : List Char, wordsOf (l ++ w) = wordsOf l := by
  intro l
  induction l with
  | nil =>
    rw [List.nil_append]
    exact wordsOf_nil_of_all_not hw
  | cons c cs ih =>
    rw [List.cons_append]
    by_cases hc : c.isAlphanum = true
    · cases cs with
      | nil =>
        have hwha : ¬headAlnum w = true := by
          cases w with
          | nil => simp [headAlnum]
          | cons a w' => simp [headAlnum, hw a (List.mem_cons_self _ _)]
        show wordsOf (c :: w) = wordsOf [c]
        rw [wordsOf_cons_alnum_nothead w hc hwha,
          wordsOf_nil_of_all_not hw, wordsOf_singleton_alnum hc]
      | cons d cs' =>
        by_cases hd : d.isAlphanum = true
        · obtain ⟨w0, ws0, hwds⟩ : ∃ w0 ws0, wordsOf (d :: cs') = w0 :: ws0 := by
            cases hx : wordsOf (d :: cs') with
            | nil => exact absurd hx (wordsOf_ne_nil_of_alnum cs' hd)
            | cons a b => exact ⟨a, b, rfl⟩
          have ihcs : wordsOf (d :: (cs' ++ w)) = w0 :: ws0 := by
            rw [← List.cons_append]
            rw [ih]
            exact hwds
          show wordsOf (c :: d :: (cs' ++ w)) = wordsOf (c :: d :: cs')
          rw [wordsOf_cons_alnum_head (d :: (cs' ++ w)) hc
              (show headAlnum (d :: (cs' ++ w)) = true from hd) ihcs,
            wordsOf_cons_alnum_head (d :: cs') hc
              (show headAlnum (d :: cs') = true from hd) hwds]
        · have h1 : wordsOf (c :: d :: (cs' ++ w)) = [c] :: wordsOf (d :: (cs' ++ w)) :=
            wordsOf_cons_alnum_nothead _ hc (by simpa [headAlnum] using hd)
          have h2 : wordsOf (c :: d :: cs') = [c] :: wordsOf (d :: cs') :=
            wordsOf_cons_alnum_nothead _ hc (by simpa [headAlnum] using hd)
          show wordsOf (c :: d :: (cs' ++ w)) = wordsOf (c :: d :: cs')
          rw [h1, h2]
          rw [show d :: (cs' ++ w) = (d :: cs') ++ w from rfl, ih]
    · rw [wordsOf_cons_not_alnum _ hc, wordsOf_cons_not_alnum _ hc, ih]

theorem wordsOf_dropWhile_ws (l : List Char) :
    wordsOf (l.dropWhile Char.isWhitespace) = wordsOf l := by
  induction l with
  | nil => rfl
  | cons c cs ih =>
    by_cases hw : Char.isWhitespace c = true
    · rw [List.dropWhile_cons_of_pos hw, ih,
        wordsOf_cons_not_alnum cs (by simp [char_ws_not_alnum hw])]
    · rw [List.dropWhile_cons_of_neg hw]

theorem wordsOf_stripWS (l : List Char) : wordsOf (stripWS l) = wordsOf l := by
  unfold stripWS
  have hdecomp :
      l.dropWhile Char.isWhitespace =
        ((l.dropWhile Char.isWhitespace).reverse.dropWhile Char.isWhitespace).reverse ++
          ((l.dropWhile Char.isWhitespace).reverse.takeWhile Char.isWhitespace).reverse := by
    have h0 := List.takeWhile_append_dropWhile
      Char.isWhitespace ((l.dropWhile Char.isWhitespace).reverse)
    have h1 := congrArg List.reverse h0
    rw [List.reverse_append, List.reverse_reverse] at h1
    exact h1.symm
  have hmem : ∀ a ∈ ((l.dropWhile Char.isWhitespace).reverse.takeWhile Char.isWhitespace).reverse,
      a.isAlphanum = false := by
    intro a ha
    rw [List.mem_reverse] at ha
    exact char_ws_not_alnum (mem_takeWhile_prop Char.isWhitespace _ a ha)
  calc wordsOf (((l.dropWhile Char.isWhitespace).reverse.dropWhile Char.isWhitespace).reverse)
      = wordsOf (((l.dropWhile Char.isWhitespace).reverse.dropWhile Char.isWhitespace).reverse ++
          ((l.dropWhile Char.isWhitespace).reverse.takeWhile Char.isWhitespace).reverse) :=
        (wordsOf_append_not_alnum hmem _).symm
    _ = wordsOf (l.dropWhile Char.isWhitespace) := by rw [← hdecomp]
    _ = wordsOf l := wordsOf_dropWhile_ws l

/-- Characterization of `normalize_col`: the result is exactly the lowercased
maximal alphanumeric words of the input joined with single underscores,
truncated to 63 characters. -/
theorem normalizeCol_eq_take_joinUS (l : List Char) :
    normalizeCol l = (joinUS (wordsLower l)).take 63 := by
  unfold normalizeCol subNonAlnum
  rw [coreNorm_eq_joinUS (stripWS l)]
  unfold wordsLower
  rw [wordsOf_stripWS]

/-! ### Canonical strings are fixed points of word splitting

Used for the idempotence analysis of `normalize_col`: a string whose
characters are lowercase alphanumerics or single non-leading, non-trailing
underscores is reassembled exactly by `joinUS ∘ wordsLower`. -/

def noDblUS : List Char → Prop
  | [] => True
  | [_] => True
  | a :: b :: t => ¬(a = '_' ∧ b = '_') ∧ noDblUS (b :: t)

theorem noDblUS_nil : noDblUS [] := trivial

theorem noDblUS_tail {a : Char} {t : List Char} (h : noDblUS (a :: t)) : noDblUS t := by
  cases t with
  | nil => trivial
  | cons b t' => exact h.2

theorem noDblUS_cons {a : Char} {m : List Char}
    (h1 : ∀ b, m.head? = some b → ¬(a = '_' ∧ b = '_')) (h2 : noDblUS m) :
    noDblUS (a :: m) := by
  cases m with
  | nil => trivial
  | cons b t => exact ⟨h1 b rfl, h2⟩

theorem noDblUS_pair {a b : Char} {t : List Char} (h : noDblUS (a :: b :: t)) :
    ¬(a = '_' ∧ b = '_') := h.1

theorem noDblUS_append {w m : List Char} (hw : ∀ a ∈ w, a ≠ '_') (hm : noDblUS m) :
    noDblUS (w ++ m) := by
  induction w with
  | nil => exact hm
  | cons a w' ih =>
    rw [List.cons_append]
    refine noDblUS_cons ?_ (ih (fun b hb => hw b (List.mem_cons_of_mem _ hb)))
    intro b _ hab
    exact hw a (List.mem_cons_self _ _) hab.1

theorem noDblUS_take : ∀ (n : Nat) (l : List Char), noDblUS l → noDblUS (l.take n) := by
  intro n l
  induction l generalizing n with
  | nil => intro _; simp [noDblUS]
  | cons a t ih =>
    intro h
    cases n with
    | zero => simp [noDblUS]
    | succ m =>
      rw [List.take_succ_cons]
      refine noDblUS_cons ?_ (ih m (noDblUS_tail h))
      intro b hb hab
      cases t with
      | nil => simp at hb
      | cons b' t' =>
        cases m with
        | zero => simp at hb
        | succ m' =>
          rw [List.take_succ_cons] at hb
          simp at hb
          exact noDblUS_pair h (by rw [← hb] at hab; exact hab)

theorem head?_take {α : Type} (n : Nat) (l : List α) (hn : 0 < n) :
    (l.take n).head? = l.head? := by
  cases l with
  | nil => simp
  | cons a t =>
    cases n with
    | zero => omega
    | succ m => rw [List.take_succ_cons]; rfl

/-- Canonical fixed-point: `joinUS (wordsLower r) = r` for canonical `r`. -/
theorem joinUS_wordsLower_fixpoint :
    ∀ (n : Nat) (r : List Char), r.length ≤ n →
      (∀ a ∈ r, (a.isAlphanum = true ∧ Char.toLower a = a) ∨ a = '_') →
      r.head? ≠ some '_' → noDblUS r → r.getLast? ≠ some '_' →
      joinUS (wordsLower r) = r := by
  intro n
  induction n with
  | zero =>
    intro r hlen _ _ _ _
    have : r = [] := List.length_eq_zero.mp (Nat.le_zero.mp hlen)
    subst this
    rfl
  | succ n ihn =>
    intro r hlen h1 h2 h3 h4
    cases r with
    | nil => rfl
    | cons c cs =>
      have hcne : c ≠ '_' := by
        intro hx
        exact h2 (by rw [hx]; rfl)
      have hcal : c.isAlphanum = true ∧ Char.toLower c = c := by
        rcases h1 c (List.mem_cons_self _ _) with h | h
        · exact h
        · exact absurd h hcne
      cases cs with
      | nil =>
        rw [wordsLower, wordsOf_singleton_alnum hcal.1]
        simp [joinUS, hcal.2]
      | cons d cs' =>
        by_cases hd : d = '_'
        · -- a single separating underscore; the remainder starts a new word
          subst hd
          cases cs' with
          | nil => exact absurd rfl h4
          | cons e cs'' =>
            have hene : e ≠ '_' := by
              intro hx
              exact noDblUS_pair (noDblUS_tail h3) ⟨rfl, hx⟩
            have heal : e.isAlphanum = true := by
              rcases h1 e (by simp) with h | h
              · exact h.1
              · exact absurd h hene
            have hih : joinUS (wordsLower (e :: cs'')) = e :: cs'' := by
              refine ihn (e :: cs'') (by simp only [List.length_cons] at hlen ⊢; omega) ?_ ?_ ?_ ?_
              · intro a ha
                exact h1 a (by simp [ha])
              · intro hx
                exact hene (by injection hx)
              · exact noDblUS_tail (noDblUS_tail h3)
              · rwa [List.getLast?_cons_cons, List.getLast?_cons_cons] at h4
            have hw1 : wordsOf (c :: '_' :: e :: cs'') = [c] :: wordsOf (e :: cs'') := by
              rw [wordsOf_cons_alnum_nothead _ hcal.1 (by simp [headAlnum]),
                wordsOf_cons_not_alnum _ (by simp)]
            rw [wordsLower, hw1]
            obtain ⟨w0, ws0, hwds⟩ : ∃ w0 ws0, wordsOf (e :: cs'') = w0 :: ws0 := by
              cases hx : wordsOf (e :: cs'') with
              | nil => exact absurd hx (wordsOf_ne_nil_of_alnum cs'' heal)
              | cons a b => exact ⟨a, b, rfl⟩
            rw [hwds]
            simp only [List.map_cons]
            rw [joinUS_cons_of_ne_nil _ (by simp)]
            have : joinUS (List.map Char.toLower w0 :: List.map (List.map Char.toLower) ws0) =
                e :: cs'' := by
              rw [← List.map_cons, ← hwds, ← wordsLower]
              exact hih
            rw [this]
            simp [hcal.2]
        · -- two adjacent word characters
          have hdal : d.isAlphanum = true := by
            rcases h1 d (by simp) with h | h
            · exact h.1
            · exact absurd h hd
          have hih : joinUS (wordsLower (d :: cs')) = d :: cs' := by
            refine ihn (d :: cs') (by simp only [List.length_cons] at hlen ⊢; omega) ?_ ?_ ?_ ?_
            · intro a ha
              exact h1 a (List.mem_cons_of_mem _ ha)
            · intro hx
              exact hd (by injection hx)
            · exact noDblUS_tail h3
            · rwa [List.getLast?_cons_cons] at h4
          obtain ⟨w0, ws0, hwds⟩ : ∃ w0 ws0, wordsOf (d :: cs') = w0 :: ws0 := by
            cases hx : wordsOf (d :: cs') with
            | nil => exact absurd hx (wordsOf_ne_nil_of_alnum cs' hdal)
            | cons a b => exact ⟨a, b, rfl⟩
          have hw1 : wordsOf (c :: d :: cs') = (c :: w0) :: ws0 :=
            wordsOf_cons_alnum_head _ hcal.1 (by simpa [headAlnum] using hdal) hwds
          rw [wordsLower, hw1, List.map_cons, List.map_cons, joinUS_cons_cons]
          have : joinUS (List.map Char.toLower w0 :: List.map (List.map Char.toLower) ws0) =
              d :: cs' := by
            rw [← List.map_cons, ← hwds, ← wordsLower]
            exact hih
          rw [this, hcal.2]

theorem noDblUS_of_all_ne {w : List Char} (hw : ∀ a ∈ w, a ≠ '_') : noDblUS w := by
  have := noDblUS_append hw noDblUS_nil
  rwa [List.append_nil] at this

theorem joinUS_mem {ws : List (List Char)}
    (hal : ∀ w ∈ ws, ∀ a ∈ w, a.isAlphanum = true ∧ Char.toLower a = a) :
    ∀ a ∈ joinUS ws, (a.isAlphanum = true ∧ Char.toLower a = a) ∨ a = '_' := by
  induction ws with
  | nil => intro a ha; simp [joinUS] at ha
  | cons w t ih =>
    intro a ha
    cases t with
    | nil => exact Or.inl (hal w (List.mem_cons_self _ _) a ha)
    | cons w' t' =>
      rw [joinUS_cons_of_ne_nil _ (by simp)] at ha
      rcases List.mem_append.mp ha with h | h
      · exact Or.inl (hal w (List.mem_cons_self _ _) a h)
      · rcases List.mem_cons.mp h with h' | h'
        · exact Or.inr h'
        · exact ih (fun v hv => hal v (List.mem_cons_of_mem _ hv)) a h'

theorem joinUS_head_ne_us {ws : List (List Char)} (hne : ∀ w ∈ ws, w ≠ [])
    (hal : ∀ w ∈ ws, ∀ a ∈ w, a.isAlphanum = true) :
    (joinUS ws).head? ≠ some '_' := by
  cases ws with
  | nil => simp [joinUS]
  | cons w t =>
    obtain ⟨b, w', rfl⟩ : ∃ b w', w = b :: w' := by
      cases w with
      | nil => exact absurd rfl (hne [] (List.mem_cons_self _ _))
      | cons b w' => exact ⟨b, w', rfl⟩
    have hb : b.isAlphanum = true := hal _ (List.mem_cons_self _ _) b (List.mem_cons_self _ _)
    cases t with
    | nil =>
      simp only [joinUS, List.head?_cons]
      intro hx
      exact char_alnum_ne_us hb (by injection hx)
    | cons w'' t' =>
      rw [joinUS_cons_of_ne_nil _ (by simp)]
      simp only [List.cons_append, List.head?_cons]
      intro hx
      exact char_alnum_ne_us hb (by injection hx)

theorem joinUS_noDblUS {ws : List (List Char)} (hne : ∀ w ∈ ws, w ≠ [])
    (hal : ∀ w ∈ ws, ∀ a ∈ w, a.isAlphanum = true) :
    noDblUS (joinUS ws) := by
  induction ws with
  | nil => exact noDblUS_nil
  | cons w t ih =>
    cases t with
    | nil =>
      show noDblUS (joinUS [w])
      exact noDblUS_of_all_ne
        (fun a ha => char_alnum_ne_us (hal w (List.mem_cons_self _ _) a ha))
    | cons w' t' =>
      rw [joinUS_cons_of_ne_nil _ (by simp)]
      refine noDblUS_append
        (fun a ha => char_alnum_ne_us (hal w (List.mem_cons_self _ _) a ha)) ?_
      refine noDblUS_cons ?_
        (ih (fun v hv => hne v (List.mem_cons_of_mem _ hv))
            (fun v hv => hal v (List.mem_cons_of_mem _ hv)))
      intro b hb hab
      have := @joinUS_head_ne_us (w' :: t')
        (fun v hv => hne v (List.mem_cons_of_mem _ hv))
        (fun v hv => hal v (List.mem_cons_of_mem _ hv))
      rw [hb] at this
      exact this (by rw [hab.2])

theorem wordsLower_mem_alnum_fixed (l : List Char) :
    ∀ w ∈ wordsLower l, ∀ a ∈ w, a.isAlphanum = true ∧ Char.toLower a = a := by
  intro w hw a ha
  rcases List.mem_map.mp hw with ⟨w', hw', rfl⟩
  rcases List.mem_map.mp ha with ⟨b, hb, rfl⟩
  exact ⟨char_toLower_alnum (wordsOf_mem_alnum l w' hw' b hb), char_toLower_toLower b⟩

theorem normalizeCol_canonical (l : List Char) :
    (∀ a ∈ normalizeCol l, (a.isAlphanum = true ∧ Char.toLower a = a) ∨ a = '_') ∧
      (normalizeCol l).head? ≠ some '_' ∧ noDblUS (normalizeCol l) ∧
      (normalizeCol l).length ≤ 63 := by
  rw [normalizeCol_eq_take_joinUS]
  have hal2 : ∀ w ∈ wordsLower l, ∀ a ∈ w, a.isAlphanum = true :=
    fun w hw a ha => (wordsLower_mem_alnum_fixed l w hw a ha).1
  refine ⟨?_, ?_, ?_, ?_⟩
  · intro a ha
    exact joinUS_mem (wordsLower_mem_alnum_fixed l) a (List.mem_of_mem_take ha)
  · rw [head?_take 63 _ (by omega)]
    exact joinUS_head_ne_us wordsLower_ne_nil_mem hal2
  · exact noDblUS_take 63 _ (joinUS_noDblUS wordsLower_ne_nil_mem hal2)
  · rw [List.length_take]
    exact Nat.min_le_left _ _

/-- Renormalizing is the identity whenever the first normalization did not
leave a trailing underscore (which only the 63-character truncation can
produce). -/
theorem normalizeCol_idem_of_no_trailing_us {s : List Char}
    (h : (normalizeCol s).getLast? ≠ some '_') :
    normalizeCol (normalizeCol s) = normalizeCol s := by
  obtain ⟨hmem, hhead, hdbl, hlen⟩ := normalizeCol_canonical s
  have hfix : joinUS (wordsLower (normalizeCol s)) = normalizeCol s :=
    joinUS_wordsLower_fixpoint (normalizeCol s).length (normalizeCol s)
      (Nat.le_refl _) hmem hhead hdbl h
  rw [normalizeCol_eq_take_joinUS (normalizeCol s), hfix]
  exact List.take_of_length_le hlen

/-! ### Checkpoint store (data_loader.py:36-64, data_loader_ext.py:28-46)

The backing JSON file maps job keys to either an integer offset or a
keyset cursor object; a reader observes the file as missing, unreadable
(raising `json.JSONDecodeError`), or parsed.  Job keys are an abstract
type `K` with decidable equality (`data_loader.py` derives them from the
hashed connection strings and table names; their exact shape is irrelevant
to the store's behaviour). -/

inductive CkptVal where
  | num (n : Int)
  | pair (sortv uniqv : Int)
deriving DecidableEq, Repr

inductive CkptFile (K : Type) where
  | missing
  | corrupt
  | parsed (entries : List (K × CkptVal))
deriving DecidableEq

/-- Semantics of `data.get(key)` on an insertion-ordered JSON object. -/
def dictGet {K : Type} [DecidableEq K] (d : List (K × CkptVal)) (k : K) : Option CkptVal :=
  (d.find? (fun e => e.1 = k)).map (fun e => e.2)

/-- Semantics of `data[key] = v` on an insertion-ordered JSON object: replace the value
in place when the key exists, append otherwise. -/
def dictSet {K : Type} [DecidableEq K] : List (K × CkptVal) → K → CkptVal → List (K × CkptVal)
  | [], k, v => [(k, v)]
  | e :: rest, k, v => if e.1 = k then (k, v) :: rest else e :: dictSet rest k v

/-- Embedding of `_read_ckpt_file` (data_loader.py:40-47): `{}` when the file is missing
or its contents fail to parse. -/
def read_ckpt_file {K : Type} : CkptFile K → List (K × CkptVal)
  | .missing => []
  | .corrupt => []
  | .parsed d => d

/-- Embedding of `read_checkpoint_keyed` (data_loader.py:55-58): `int(data.get(key, 0))`.
`none` models `int(...)` raising on a non-integer entry (a keyset cursor
object); in the fail-open cases the result is `some 0`. -/
def read_checkpoint_keyed {K : Type} [DecidableEq K] (f : CkptFile K) (k : K) : Option Int :=
  match dictGet (read_ckpt_file f) k with
  | none => some 0
  | some (.num n) => some n
  | some (.pair _ _) => none

/-- Embedding of `write_checkpoint_keyed` (data_loader.py:60-64): read-modify-write of
the whole file under the file lock. -/
def write_checkpoint_keyed {K : Type} [DecidableEq K] (f : CkptFile K) (k : K)
    (off : Int) : CkptFile K :=
  .parsed (dictSet (read_ckpt_file f) k (.num off))

/-- Embedding of `read_checkpoint` (data_loader_ext.py:28-36): `data.get(table, 0)` with
`JSONDecodeError`/`FileNotFoundError` caught, returning the raw entry. -/
def ext_read_checkpoint {K : Type} [DecidableEq K] (f : CkptFile K) (k : K) : CkptVal :=
  match f with
  | .missing => .num 0
  | .corrupt => .num 0
  | .parsed d => (dictGet d k).getD (.num 0)

/-- Embedding of `write_checkpoint` (data_loader_ext.py:38-46): unlike the keyed variant,
`json.loads` is NOT wrapped in a try/except here, so an existing but
unparseable file makes the write raise instead of writing. -/
def ext_write_checkpoint {K : Type} [DecidableEq K] (f : CkptFile K) (k : K)
    (off : Int) : Except Unit (CkptFile K) :=
  match f with
  | .missing => .ok (.parsed (dictSet [] k (.num off)))
  | .corrupt => .error ()
  | .parsed d => .ok (.parsed (dictSet d k (.num off)))

theorem dictGet_dictSet_same {K : Type} [DecidableEq K] (d : List (K × CkptVal))
    (k : K) (v : CkptVal) : dictGet (dictSet d k v) k = some v := by
  induction d with
  | nil => simp [dictSet, dictGet, List.find?]
  | cons e rest ih =>
    by_cases he : e.1 = k
    · simp [dictSet, he, dictGet, List.find?]
    · simp only [dictSet, if_neg he]
      simp only [dictGet, List.find?] at ih ⊢
      rw [show (decide (e.1 = k)) = false by simp [he]]
      exact ih

theorem dictGet_dictSet_ne {K : Type} [DecidableEq K] (d : List (K × CkptVal))
    (k k' : K) (v : CkptVal) (h : k' ≠ k) :
    dictGet (dictSet d k v) k' = dictGet d k' := by
  have hk : ¬(k = k') := fun hx => h hx.symm
  induction d with
  | nil => simp [dictSet, dictGet, List.find?, hk]
  | cons e rest ih =>
    by_cases he : e.1 = k
    · have he' : ¬(e.1 = k') := by rw [he]; exact hk
      simp only [dictSet, if_pos he]
      simp only [dictGet, List.find?]
      rw [show (decide (k = k')) = false by simp [hk]]
      rw [show (decide (e.1 = k')) = false by simp [he']]
    · simp only [dictSet, if_neg he]
      simp only [dictGet, List.find?] at ih ⊢
      cases hd : decide (e.1 = k') with
      | true => rfl
      | false => exact ih

/-! ### Pagination loops

`CHUNK_SIZE` is the module constant of both loader files; the loop
embeddings take the batch size as a parameter so that the spec's
scenarios (batch size 2) and the real constant can both be instantiated.
The environment `env i` states whether iteration `i`'s fetch and insert
ultimately succeed once their tenacity retries are exhausted — backoff
timing is irrelevant to checkpoint contents.  `fuel` bounds the number of
modelled iterations (`fuelOut` marks a truncated trace). -/

def CHUNK_SIZE : Nat := 500

inductive StepEnv where
  | ok
  | fetchFail
  | insertFail
deriving DecidableEq, Repr

def allOk : Nat → StepEnv := fun _ => .ok

inductive RunOutcome where
  | success
  | failed
  | fuelOut
deriving DecidableEq, Repr

structure DLTrace (α : Type) where
  fetches : List (Nat × Nat)
  writes : List Nat
  inserted : List α
  outcome : RunOutcome
deriving DecidableEq, Repr

/-- The paged loop of `migrate_table` (data_loader.py:339-372): fetch at
`offset` (`OFFSET ? ROWS FETCH NEXT ? ROWS ONLY` over the ordered source,
modelled as `drop`/`take`), stop on an empty chunk and then write the
completion checkpoint `0`; otherwise insert the chunk, advance `offset`
by the number of rows inserted and durably write it.  A fetch or insert
failure re-raises with NO checkpoint write (the `except` branch only
logs). -/
def dlPagedLoop {α : Type} (src : List α) (c : Nat) (env : Nat → StepEnv) :
    Nat → Nat → Nat → DLTrace α
  | _, _, 0 => ⟨[], [], [], .fuelOut⟩
  | iter, offset, fuel + 1 =>
    match env iter with
    | .fetchFail => ⟨[], [], [], .failed⟩
    | .insertFail =>
      let rows := (src.drop offset).take c
      if rows.isEmpty then ⟨[(offset, 0)], [0], [], .success⟩
      else ⟨[(offset, rows.length)], [], [], .failed⟩
    | .ok =>
      let rows := (src.drop offset).take c
      if rows.isEmpty then ⟨[(offset, 0)], [0], [], .success⟩
      else
        let t := dlPagedLoop src c env (iter + 1) (offset + rows.length) fuel
        ⟨(offset, rows.length) :: t.fetches, (offset + rows.length) :: t.writes,
          rows ++ t.inserted, t.outcome⟩

/-- Apply a run's checkpoint writes (for one job key) to the store. -/
def applyWrites {K : Type} [DecidableEq K] (f : CkptFile K) (k : K)
    (ws : List Nat) : CkptFile K :=
  ws.foldl (fun acc off => write_checkpoint_keyed acc k (Int.ofNat off)) f

structure MigrateRun (K α : Type) where
  nondetWarnings : Nat
  singleFetches : Nat
  recreated : Bool
  fetches : List (Nat × Nat)
  writes : List Nat
  inserted : List α
  store : CkptFile K
  outcome : RunOutcome

/-- Embedding of `migrate_table` (data_loader.py:275-373).  `sortCols` empty disables
paging: `_build_base_sql` logs the non-determinism warning exactly once
(data_loader.py:127-131) and the run does a single unordered fetch.  The
SQL build (and so the warning) happens BEFORE the checkpoint read
(data_loader.py:285 vs 296); if the stored entry for the key is a keyset
pair, `int()` raises `TypeError` (data_loader.py:58, `read_checkpoint_keyed`
returns `none` here) and the run aborts right there — after the warning
but before the DDL guard, any fetch, and any checkpoint write.  Otherwise
the schema drop/recreate runs only when the stored offset is 0 AND the
recreate flag is set (data_loader.py:303), and the unconditional
completion write of 0 (data_loader.py:372) runs whenever the transfer
finishes without raising. -/
def migrate_table_run {K α : Type} [DecidableEq K] (src : List α) (c : Nat)
    (sortCols : List (List Char)) (recreate : Bool) (env : Nat → StepEnv)
    (fuel : Nat) (f₀ : CkptFile K) (k : K) : MigrateRun K α :=
  let warn : Nat := if sortCols.isEmpty then 1 else 0
  match read_checkpoint_keyed f₀ k with
  | none => ⟨warn, 0, false, [], [], [], f₀, .failed⟩
  | some offInt =>
    let recreated := decide (offInt = 0) && recreate
    if sortCols.isEmpty then
      match env 0 with
      | .fetchFail => ⟨1, 1, recreated, [], [], [], f₀, .failed⟩
      | .insertFail =>
        if src.isEmpty then ⟨1, 1, recreated, [], [0], [], applyWrites f₀ k [0], .success⟩
        else ⟨1, 1, recreated, [], [], [], f₀, .failed⟩
      | .ok => ⟨1, 1, recreated, [], [0], src, applyWrites f₀ k [0], .success⟩
    else
      let t := dlPagedLoop src c env 0 offInt.toNat fuel
      ⟨0, 0, recreated, t.fetches, t.writes, t.inserted, applyWrites f₀ k t.writes, t.outcome⟩

structure ExtTrace (α : Type) where
  writes : List Nat
  inserted : List α
  outcome : RunOutcome
deriving DecidableEq, Repr

/-- The paged loop of `migrate_table` in data_loader_ext.py:313-331.  The
crucial difference from data_loader.py: on ANY exception after retries
(fetch or insert) the `except` branch writes
`write_checkpoint(table, max(0, offset - CHUNK_SIZE))` — a rewind of one
batch below the last durably written boundary (`max(0, a - b)` on Python
ints is truncated subtraction on `Nat`) — and then re-raises. -/
def extPagedLoop {α : Type} (src : List α) (c : Nat) (env : Nat → StepEnv) :
    Nat → Nat → Nat → ExtTrace α
  | _, _, 0 => ⟨[], [], .fuelOut⟩
  | iter, offset, fuel + 1 =>
    match env iter with
    | .fetchFail => ⟨[offset - c], [], .failed⟩
    | .insertFail =>
      let rows := (src.drop offset).take c
      if rows.isEmpty then ⟨[0], [], .success⟩
      else ⟨[offset - c], [], .failed⟩
    | .ok =>
      let rows := (src.drop offset).take c
      if rows.isEmpty then ⟨[0], [], .success⟩
      else
        let t := extPagedLoop src c env (iter + 1) (offset + rows.length) fuel
        ⟨(offset + rows.length) :: t.writes, rows ++ t.inserted, t.outcome⟩

structure ExtMigrateRun (α : Type) where
  droppedAndRecreated : Bool
  startOffset : Nat
  writes : List Nat
  targetRows : List α
  outcome : RunOutcome
deriving DecidableEq, Repr

/-- Embedding of `migrate_table` in data_loader_ext.py:283-331: the schema phase
(`extract_sqlserver_schema` + `recreate_pg_table`, which issues
`DROP TABLE IF EXISTS ... CASCADE` and `CREATE TABLE`) runs
UNCONDITIONALLY, and only afterwards is the checkpoint read
(data_loader_ext.py:311) and the paged loop started at the stored offset.
After the recreate the target table is empty, so its final contents are
exactly the rows the loop inserted. -/
def ext_migrate_table {K α : Type} [DecidableEq K] (src : List α) (c : Nat)
    (env : Nat → StepEnv) (fuel : Nat) (f₀ : CkptFile K) (k : K) : ExtMigrateRun α :=
  let stored :=
    match ext_read_checkpoint f₀ k with
    | .num n => n.toNat
    | .pair _ _ => 0
  let t := extPagedLoop src c env 0 stored fuel
  ⟨true, stored, t.writes, t.inserted, t.outcome⟩

/-! ### Keyset pagination (data_loader_ext.py:205-247 and 382-412) -/

inductive Dir where
  | asc
  | desc
deriving DecidableEq, Repr

/-- A row of the wrapped query: sort field, unique/tiebreak field, opaque
payload. -/
structure KRow where
  sortv : Int
  uniqv : Int
  payload : Int
deriving DecidableEq, Repr

/-- The cursor predicate built by `fetch_keyset_chunk_generic`
(data_loader_ext.py:227-229): `(sort > ?) OR (sort = ? AND unique > ?)`
for ascending order, both comparisons flipped to `<` for descending. -/
def cursorPred (dir : Dir) (lastSort lastUnique : Int) (r : KRow) : Bool :=
  match dir with
  | .asc => decide (r.sortv > lastSort) ||
      (decide (r.sortv = lastSort) && decide (r.uniqv > lastUnique))
  | .desc => decide (r.sortv < lastSort) ||
      (decide (r.sortv = lastSort) && decide (r.uniqv < lastUnique))

/-- The clause `ORDER BY sort dir, unique dir` as the comparison of a stable sort. -/
def keysetLE (dir : Dir) (a b : KRow) : Bool :=
  match dir with
  | .asc => decide (a.sortv < b.sortv) ||
      (decide (a.sortv = b.sortv) && decide (a.uniqv ≤ b.uniqv))
  | .desc => decide (b.sortv < a.sortv) ||
      (decide (a.sortv = b.sortv) && decide (b.uniqv ≤ a.uniqv))

/-- Embedding of `fetch_keyset_chunk_generic` (data_loader_ext.py:205-247), modelled by
the relational semantics of the SQL it builds over a source relation:
with no cursor (`last_sort_value`/`last_unique_value` is `None`) the
query is a plain `SELECT * FROM src ORDER BY sort dir, unique dir
OFFSET 0 ROWS FETCH NEXT limit ROWS ONLY`; with a cursor the same
ordered, limited query over the rows satisfying `cursorPred`. -/
def fetch_keyset_chunk_generic (src : List KRow) (dir : Dir)
    (lastSort lastUnique : Option Int) (limit : Nat) : List KRow :=
  match lastSort, lastUnique with
  | some ls, some lu =>
    (((src.filter (cursorPred dir ls lu)).mergeSort (keysetLE dir)).take limit)
  | _, _ => ((src.mergeSort (keysetLE dir)).take limit)

structure KStep where
  qCursor : Option (Int × Int)
  fetched : List KRow
  insertedRows : List KRow
  ckpt : Int × Int
deriving DecidableEq, Repr

inductive KOutcome where
  | done
  | fuelOut
  | emptyTransformError
deriving DecidableEq, Repr

/-- The keyset branch of `migrate_entry` (data_loader_ext.py:382-412):
fetch with the current cursor, stop on an empty chunk, apply the plugin
chain `tf`, bulk-insert the transformed rows, then take the new cursor
from the last row of the chunk that was inserted (`rows[-1]` AFTER the
transform) and write it with `write_keyset_checkpoint`.  A transform
returning `[]` on a non-empty fetch makes `rows[-1]` raise `IndexError`
(`emptyTransformError`). -/
def migrate_entry_keyset (src : List KRow) (dir : Dir)
    (tf : List KRow → List KRow) (limit : Nat) :
    Option (Int × Int) → Nat → List KStep × KOutcome
  | _, 0 => ([], .fuelOut)
  | cursor, fuel + 1 =>
    let rows := fetch_keyset_chunk_generic src dir (cursor.map Prod.fst)
      (cursor.map Prod.snd) limit
    if rows.isEmpty then ([], .done)
    else
      let rows' := tf rows
      match rows'.getLast? with
      | none => ([], .emptyTransformError)
      | some last =>
        let ck := (last.sortv, last.uniqv)
        let rest := migrate_entry_keyset src dir tf limit (some ck) fuel
        (⟨cursor, rows, rows', ck⟩ :: rest.1, rest.2)

/-- Well-formedness of a keyset trace started at cursor `cur`: the first
fetch carries exactly `cur` (no predicate when `none`), each chunk
inserted is the transform of the chunk fetched, each checkpoint written
is the (sort, unique) pair of the last row actually inserted, and every
subsequent fetch carries exactly the previously checkpointed cursor. -/
def KStepsWF (src : List KRow) (dir : Dir) (tf : List KRow → List KRow)
    (limit : Nat) : Option (Int × Int) → List KStep → Prop
  | _, [] => True
  | cur, st :: rest =>
    st.qCursor = cur ∧
    st.fetched =
      fetch_keyset_chunk_generic src dir (cur.map Prod.fst) (cur.map Prod.snd) limit ∧
    st.insertedRows = tf st.fetched ∧
    (∃ last, st.insertedRows.getLast? = some last ∧
      st.ckpt = (last.sortv, last.uniqv)) ∧
    KStepsWF src dir tf limit (some st.ckpt) rest

/-! ### Schema translation (data_loader.py:145-178) -/

structure SrcCol where
  colName : List Char
  dataType : List Char
  isNullableNo : Bool
  charMax : Option Int
deriving DecidableEq, Repr

inductive PgType where
  | varcharN (n : Int)
  | text
  | integer
  | bigint
  | smallint
  | boolean
  | numeric
  | doublePrecision
  | real
  | uuid
  | bytea
  | timestamptz
  | date
  | time
deriving DecidableEq, Repr

/-- Embedding of `sqlserver_to_postgres_type` (data_loader.py:71-81): character types
become `varchar(n)` for a truthy positive max length and `text`
otherwise; the remaining types go through the fixed lookup table with
`text` as the deliberate default for unrecognized types. -/
def sqlserver_to_postgres_type (t : List Char) (maxLen : Option Int) : PgType :=
  let tl := t.map Char.toLower
  if tl = ['v','a','r','c','h','a','r'] ∨ tl = ['n','v','a','r','c','h','a','r'] ∨
      tl = ['c','h','a','r'] ∨ tl = ['n','c','h','a','r'] then
    match maxLen with
    | some n => if 0 < n then .varcharN n else .text
    | none => .text
  else if tl = ['i','n','t'] then .integer
  else if tl = ['b','i','g','i','n','t'] then .bigint
  else if tl = ['s','m','a','l','l','i','n','t'] then .smallint
  else if tl = ['b','i','t'] then .boolean
  else if tl = ['d','e','c','i','m','a','l'] then .numeric
  else if tl = ['n','u','m','e','r','i','c'] then .numeric
  else if tl = ['f','l','o','a','t'] then .doublePrecision
  else if tl = ['r','e','a','l'] then .real
  else if tl = ['u','n','i','q','u','e','i','d','e','n','t','i','f','i','e','r'] then .uuid
  else if tl = ['v','a','r','b','i','n','a','r','y'] then .bytea
  else if tl = ['d','a','t','e','t','i','m','e'] then .timestamptz
  else if tl = ['d','a','t','e','t','i','m','e','2'] then .timestamptz
  else if tl = ['d','a','t','e'] then .date
  else if tl = ['t','i','m','e'] then .time
  else if tl = ['s','m','a','l','l','d','a','t','e','t','i','m','e'] then .timestamptz
  else .text

/-- Index of the LAST occurrence of `k`, starting positions at `base`:
the semantics of the dict comprehension
`{c.lower(): i for i, c in enumerate(want)}`, where a later duplicate
overwrites the index of an earlier one. -/
def lastIdxFrom (base : Nat) : List (List Char) → List Char → Option Nat
  | [], _ => none
  | k' :: rest, k =>
    match lastIdxFrom (base + 1) rest k with
    | some j => some j
    | none => if k' = k then some base else none

/-- Lookup `want_lc_index[name.lower()]` over the lowercased requested names. -/
def want_lc_index (want : List (List Char)) (k : List Char) : Option Nat :=
  lastIdxFrom 0 (want.map (List.map Char.toLower)) (k.map Char.toLower)

/-- The filtering and reordering of `extract_sqlserver_schema`
(data_loader.py:163-167): strip the requested names, keep the catalog
rows whose lowercased name is one of them, and stable-sort the survivors
by the requested position (`list.sort(key=...)` is a stable sort;
`mergeSort` is the stable sort).  A requested name matching no catalog
row simply selects nothing — no exception is raised anywhere here. -/
def selectRows (rows : List SrcCol) (selected : List (List Char)) : List SrcCol :=
  let want := selected.map stripWS
  (rows.filter (fun r => (want_lc_index want r.colName).isSome)).mergeSort
    (fun a b =>
      (want_lc_index want a.colName).getD 0 ≤ (want_lc_index want b.colName).getD 0)

structure DdlCol where
  colName : List Char
  pgType : PgType
  notNull : Bool
deriving DecidableEq, Repr

/-- The pure core of `extract_sqlserver_schema` (data_loader.py:145-178)
once the catalog query has returned `rows` in ordinal order: optional
case-insensitive filter/reorder by the requested subset, then one
`CREATE TABLE` column per retained row, with the identifier normalized by
`normalize_col` and the type mapped by `sqlserver_to_postgres_type`
(`NOT NULL` iff `IS_NULLABLE == "NO"`). -/
def extract_sqlserver_schema_cols (rows : List SrcCol)
    (selected : Option (List (List Char))) : List DdlCol :=
  let retained :=
    match selected with
    | some sel => if sel.isEmpty then rows else selectRows rows sel
    | none => rows
  retained.map (fun r =>
    ⟨normalizeCol r.colName, sqlserver_to_postgres_type r.dataType r.charMax,
      r.isNullableNo⟩)

/-! ### Bulk insert (data_loader.py:248-264, data_loader_ext.py:255-271) -/

/-- Semantics of `row[col]` on a dict-shaped row; `none` is a `KeyError`. -/
def rowGet {V : Type} (row : List (List Char × V)) (k : List Char) : Option V :=
  (row.find? (fun e => e.1 = k)).map (fun e => e.2)

/-- The record-building core of `insert_chunk_pg`: the empty chunk returns
0 rows without touching the target; otherwise the target columns are the
keys of `rows[0]`, normalized, and the records are
`[tuple(row[col] for col in raw_cols) for row in rows]` — built eagerly
BEFORE `copy_records_to_table` runs, so a row missing one of the first
row's keys raises `KeyError` (`Except.error`) with nothing written, and
keys not in the first row are never consulted.  On success the payload
`(columns, records, rowcount)` feeds the single bulk copy. -/
def mapOption {α β : Type} (f : α → Option β) : List α → Option (List β)
  | [] => some []
  | a :: t =>
    match f a, mapOption f t with
    | some b, some bs => some (b :: bs)
    | _, _ => none

def insert_chunk_pg {V : Type} (rows : List (List (List Char × V))) :
    Except Unit (List (List Char) × List (List V) × Nat) :=
  match rows with
  | [] => .ok ([], [], 0)
  | r0 :: _ =>
    let rawCols := r0.map Prod.fst
    match mapOption (fun row => mapOption (fun c => rowGet row c) rawCols) rows with
    | none => .error ()
    | some recs => .ok (rawCols.map normalizeCol, recs, rows.length)

/-! ### Support lemmas for the schema-subset selection -/

theorem lastIdxFrom_cons (base : Nat) (k' : List Char) (rest : List (List Char))
    (k : List Char) :
    lastIdxFrom base (k' :: rest) k =
      match lastIdxFrom (base + 1) rest k with
      | some j => some j
      | none => if k' = k then some base else none := rfl

theorem lastIdxFrom_shift (ks : List (List Char)) (k : List Char) :
    ∀ base : Nat, lastIdxFrom base ks k = (lastIdxFrom 0 ks k).map (· + base) := by
  induction ks with
  | nil => intro base; rfl
  | cons k' rest ih =>
    intro base
    rw [lastIdxFrom_cons base, lastIdxFrom_cons 0, ih (base + 1), ih 1]
    cases h0 : lastIdxFrom 0 rest k with
    | some j =>
      show some (j + (base + 1)) = some (j + 1 + base)
      congr 1
      omega
    | none =>
      by_cases hk : k' = k
      · simp [hk]
      · simp [hk]

theorem lastIdxFrom_eq_none_iff (ks : List (List Char)) (k : List Char) :
    lastIdxFrom 0 ks k = none ↔ k ∉ ks := by
  induction ks with
  | nil => simp [lastIdxFrom]
  | cons k' rest ih =>
    rw [lastIdxFrom_cons 0, lastIdxFrom_shift rest k 1]
    cases h0 : lastIdxFrom 0 rest k with
    | some j =>
      have hkrest : k ∈ rest := by
        by_contra hx
        rw [ih.mpr hx] at h0
        exact absurd h0 (by simp)
      constructor
      · intro hx
        exact absurd hx (by simp)
      · intro hx
        exact absurd (List.mem_cons_of_mem k' hkrest) hx
    | none =>
      have hnotmem : k ∉ rest := ih.mp h0
      show (if k' = k then some 0 else none) = none ↔ _
      by_cases hk : k' = k
      · rw [if_pos hk]
        constructor
        · intro hx
          exact absurd hx (by simp)
        · intro hx
          exact absurd (hk ▸ List.mem_cons_self k' rest : k ∈ k' :: rest) hx
      · rw [if_neg hk]
        constructor
        · intro _ hx
          rcases List.mem_cons.mp hx with h | h
          · exact hk h.symm
          · exact hnotmem h
        · intro _
          rfl

theorem lastIdxFrom_get (ks : List (List Char)) (k : List Char) (i : Nat)
    (h : lastIdxFrom 0 ks k = some i) :
    ∃ hi : i < ks.length, ks.get ⟨i, hi⟩ = k := by
  induction ks generalizing i with
  | nil => exact absurd h (by simp [lastIdxFrom])
  | cons k' rest ih =>
    rw [lastIdxFrom_cons 0, lastIdxFrom_shift rest k 1] at h
    cases h0 : lastIdxFrom 0 rest k with
    | some j =>
      rw [h0] at h
      have : i = j + 1 := by
        have hji : (some (j + 1) : Option Nat) = some i := h
        injection hji with hji
        omega
      subst this
      obtain ⟨hj, hget⟩ := ih j h0
      exact ⟨by simp; omega, hget⟩
    | none =>
      rw [h0] at h
      show ∃ hi : i < rest.length + 1, _
      by_cases hk : k' = k
      · rw [if_pos hk] at h
        have : i = 0 := by
          have h0i : (some 0 : Option Nat) = some i := h
          injection h0i with h0i
          omega
        subst this
        exact ⟨by omega, hk⟩
      · rw [if_neg hk] at h
        exact absurd h (by simp)

theorem lastIdxFrom_nodup_get (ks : List (List Char)) (hnd : ks.Nodup) (i : Nat)
    (hi : i < ks.length) : lastIdxFrom 0 ks (ks.get ⟨i, hi⟩) = some i := by
  induction ks generalizing i with
  | nil => simp at hi
  | cons k' rest ih =>
    rw [lastIdxFrom_cons 0, lastIdxFrom_shift rest (( k' :: rest).get ⟨i, hi⟩) 1]
    rcases List.nodup_cons.mp hnd with ⟨hknot, hndrest⟩
    cases i with
    | zero =>
      have hget : (k' :: rest).get ⟨0, hi⟩ = k' := rfl
      rw [hget, (lastIdxFrom_eq_none_iff rest k').mpr hknot]
      simp
    | succ j =>
      have hj : j < rest.length := by simp at hi; omega
      have hget : (k' :: rest).get ⟨j + 1, hi⟩ = rest.get ⟨j, hj⟩ := rfl
      rw [hget, ih hndrest j hj]
      show some (j + 1) = some (j + 1)
      rfl

theorem lastIdxFrom_inj {ks : List (List Char)} {k1 k2 : List Char}
    (h1 : k1 ∈ ks) (h2 : k2 ∈ ks)
    (heq : (lastIdxFrom 0 ks k1).getD 0 = (lastIdxFrom 0 ks k2).getD 0) : k1 = k2 := by
  obtain ⟨i1, hi1⟩ : ∃ i, lastIdxFrom 0 ks k1 = some i := by
    cases hx : lastIdxFrom 0 ks k1 with
    | none => exact absurd ((lastIdxFrom_eq_none_iff ks k1).mp hx) (by simp [h1])
    | some i => exact ⟨i, rfl⟩
  obtain ⟨i2, hi2⟩ : ∃ i, lastIdxFrom 0 ks k2 = some i := by
    cases hx : lastIdxFrom 0 ks k2 with
    | none => exact absurd ((lastIdxFrom_eq_none_iff ks k2).mp hx) (by simp [h2])
    | some i => exact ⟨i, rfl⟩
  rw [hi1, hi2] at heq
  simp at heq
  subst heq
  obtain ⟨hl1, hg1⟩ := lastIdxFrom_get ks k1 i1 hi1
  obtain ⟨hl2, hg2⟩ := lastIdxFrom_get ks k2 i1 hi2
  rw [← hg1, ← hg2]

theorem lastIdxFrom_pairwise_lt (ks : List (List Char)) (hnd : ks.Nodup) :
    ks.Pairwise (fun a b => (lastIdxFrom 0 ks a).getD 0 < (lastIdxFrom 0 ks b).getD 0) := by
  rw [List.pairwise_iff_getElem]
  intro i j hi hj hij
  have hgi : ks.get ⟨i, hi⟩ = ks[i] := rfl
  have hgj : ks.get ⟨j, hj⟩ = ks[j] := rfl
  rw [← hgi, ← hgj, lastIdxFrom_nodup_get ks hnd i hi, lastIdxFrom_nodup_get ks hnd j hj]
  simpa using hij

theorem map_filter_comp {α β : Type} (f : α → β) (q : β → Bool) (l : List α) :
    (l.filter (fun a => q (f a))).map f = (l.map f).filter q := by
  induction l with
  | nil => rfl
  | cons a t ih =>
    by_cases hq : q (f a) = true
    · simp [List.filter_cons, hq, ih]
    · simp [List.filter_cons, hq, ih]

/-- The retained-and-reordered characterization of `selectRows`: when the
lowercased stripped requested names and the lowercased catalog names are
each duplicate-free, the lowercased names of the retained rows are exactly
the requested names that exist in the catalog, in the requested order. -/
theorem selectRows_retained (rows : List SrcCol) (sel : List (List Char))
    (hnd1 : (sel.map (fun c => (stripWS c).map Char.toLower)).Nodup)
    (hnd2 : (rows.map (fun r => r.colName.map Char.toLower)).Nodup) :
    (selectRows rows sel).map (fun r => r.colName.map Char.toLower) =
      (sel.map (fun c => (stripWS c).map Char.toLower)).filter
        (fun k => k ∈ rows.map (fun r => r.colName.map Char.toLower)) := by
  classical
  have hwl : (sel.map stripWS).map (List.map Char.toLower) =
      sel.map (fun c => (stripWS c).map Char.toLower) := by
    rw [List.map_map]
    rfl
  have hidx : ∀ name : List Char,
      want_lc_index (sel.map stripWS) name =
        lastIdxFrom 0 (sel.map (fun c => (stripWS c).map Char.toLower))
          (name.map Char.toLower) := by
    intro name
    rw [want_lc_index, hwl]
  have hsel : selectRows rows sel =
      (rows.filter (fun r => (want_lc_index (sel.map stripWS) r.colName).isSome)).mergeSort
        (fun a b => decide ((want_lc_index (sel.map stripWS) a.colName).getD 0 ≤
          (want_lc_index (sel.map stripWS) b.colName).getD 0)) := rfl
  have hperm : List.Perm (selectRows rows sel)
      (rows.filter (fun r => (want_lc_index (sel.map stripWS) r.colName).isSome)) := by
    rw [hsel]
    exact List.mergeSort_perm _ _
  have hsorted0 : (selectRows rows sel).Pairwise
      (fun a b => (want_lc_index (sel.map stripWS) a.colName).getD 0 ≤
        (want_lc_index (sel.map stripWS) b.colName).getD 0) := by
    rw [hsel]
    have := @List.sorted_mergeSort SrcCol
      (fun a b => decide ((want_lc_index (sel.map stripWS) a.colName).getD 0 ≤
        (want_lc_index (sel.map stripWS) b.colName).getD 0))
      (by intro a b c hab hbc; simp at hab hbc ⊢; omega)
      (by intro a b; simp; omega)
      (rows.filter (fun r => (want_lc_index (sel.map stripWS) r.colName).isSome))
    exact this.imp (by intro a b h; simpa using h)
  -- Lowercased names of the retained rows
  have hmapfilter :
      (rows.filter (fun r => (want_lc_index (sel.map stripWS) r.colName).isSome)).map
          (fun r => r.colName.map Char.toLower) =
        (rows.map (fun r => r.colName.map Char.toLower)).filter
          (fun k => (lastIdxFrom 0 (sel.map (fun c => (stripWS c).map Char.toLower)) k).isSome) := by
    rw [← map_filter_comp (fun r => r.colName.map Char.toLower)
      (fun k => (lastIdxFrom 0 (sel.map (fun c => (stripWS c).map Char.toLower)) k).isSome) rows]
    congr 1
    apply List.filter_congr
    intro r _
    rw [hidx r.colName]
  have hmemiff : ∀ k,
      k ∈ (rows.map (fun r => r.colName.map Char.toLower)).filter
          (fun k => (lastIdxFrom 0 (sel.map (fun c => (stripWS c).map Char.toLower)) k).isSome) ↔
        k ∈ (sel.map (fun c => (stripWS c).map Char.toLower)).filter
          (fun k => k ∈ rows.map (fun r => r.colName.map Char.toLower)) := by
    intro k
    simp only [List.mem_filter, decide_eq_true_eq]
    constructor
    · rintro ⟨hk, hsome⟩
      refine ⟨?_, by simpa using hk⟩
      by_contra hx
      rw [(lastIdxFrom_eq_none_iff _ _).mpr hx] at hsome
      simp at hsome
    · rintro ⟨hk, hmem⟩
      refine ⟨by simpa using hmem, ?_⟩
      cases hx : lastIdxFrom 0 (sel.map (fun c => (stripWS c).map Char.toLower)) k with
      | none => exact absurd ((lastIdxFrom_eq_none_iff _ _).mp hx) (by simp [hk])
      | some j => simp
  have hndF : ((rows.map (fun r => r.colName.map Char.toLower)).filter
      (fun k => (lastIdxFrom 0 (sel.map (fun c => (stripWS c).map Char.toLower)) k).isSome)).Nodup :=
    hnd2.filter _
  have hndT : ((sel.map (fun c => (stripWS c).map Char.toLower)).filter
      (fun k => k ∈ rows.map (fun r => r.colName.map Char.toLower))).Nodup :=
    hnd1.filter _
  have hpermFT := (List.perm_ext_iff_of_nodup hndF hndT).mpr hmemiff
  have hMT : List.Perm ((selectRows rows sel).map (fun r => r.colName.map Char.toLower))
      ((sel.map (fun c => (stripWS c).map Char.toLower)).filter
        (fun k => k ∈ rows.map (fun r => r.colName.map Char.toLower))) :=
    ((hperm.map (fun r => r.colName.map Char.toLower)).trans
      (by rw [hmapfilter])).trans hpermFT
  -- both sides are strictly sorted by the requested position
  have hMnodup : ((selectRows rows sel).map (fun r => r.colName.map Char.toLower)).Nodup :=
    hMT.nodup_iff.mpr hndT
  have hmemwl : ∀ k ∈ (selectRows rows sel).map (fun r => r.colName.map Char.toLower),
      k ∈ sel.map (fun c => (stripWS c).map Char.toLower) := by
    intro k hk
    have := hMT.mem_iff.mp hk
    exact (List.mem_filter.mp this).1
  have hMsorted_le : ((selectRows rows sel).map (fun r => r.colName.map Char.toLower)).Pairwise
      (fun k1 k2 =>
        (lastIdxFrom 0 (sel.map (fun c => (stripWS c).map Char.toLower)) k1).getD 0 ≤
        (lastIdxFrom 0 (sel.map (fun c => (stripWS c).map Char.toLower)) k2).getD 0) := by
    rw [List.pairwise_map]
    refine hsorted0.imp ?_
    intro a b h
    rwa [hidx a.colName, hidx b.colName] at h
  have hMsorted_lt : ((selectRows rows sel).map (fun r => r.colName.map Char.toLower)).Pairwise
      (fun k1 k2 =>
        (lastIdxFrom 0 (sel.map (fun c => (stripWS c).map Char.toLower)) k1).getD 0 <
        (lastIdxFrom 0 (sel.map (fun c => (stripWS c).map Char.toLower)) k2).getD 0) := by
    rw [List.pairwise_iff_getElem] at hMsorted_le ⊢
    intro i j hi hj hij
    have hle := hMsorted_le i j hi hj hij
    have hne : ((selectRows rows sel).map (fun r => r.colName.map Char.toLower))[i] ≠
        ((selectRows rows sel).map (fun r => r.colName.map Char.toLower))[j] := by
      intro hx
      have := (List.Nodup.getElem_inj_iff hMnodup).mp hx
      omega
    have hm1 := hmemwl _ (List.getElem_mem hi)
    have hm2 := hmemwl _ (List.getElem_mem hj)
    rcases Nat.lt_or_ge
      ((lastIdxFrom 0 (sel.map (fun c => (stripWS c).map Char.toLower))
        (((selectRows rows sel).map (fun r => r.colName.map Char.toLower))[i])).getD 0)
      ((lastIdxFrom 0 (sel.map (fun c => (stripWS c).map Char.toLower))
        (((selectRows rows sel).map (fun r => r.colName.map Char.toLower))[j])).getD 0) with
      hlt | hge
    · exact hlt
    · have heq : (lastIdxFrom 0 (sel.map (fun c => (stripWS c).map Char.toLower))
          (((selectRows rows sel).map (fun r => r.colName.map Char.toLower))[i])).getD 0 =
          (lastIdxFrom 0 (sel.map (fun c => (stripWS c).map Char.toLower))
          (((selectRows rows sel).map (fun r => r.colName.map Char.toLower))[j])).getD 0 := by
        omega
      exact absurd (lastIdxFrom_inj hm1 hm2 heq) hne
  have hTsorted_lt : (((sel.map (fun c => (stripWS c).map Char.toLower)).filter
      (fun k => k ∈ rows.map (fun r => r.colName.map Char.toLower)))).Pairwise
      (fun k1 k2 =>
        (lastIdxFrom 0 (sel.map (fun c => (stripWS c).map Char.toLower)) k1).getD 0 <
        (lastIdxFrom 0 (sel.map (fun c => (stripWS c).map Char.toLower)) k2).getD 0) :=
    List.Pairwise.sublist (List.filter_sublist _) (lastIdxFrom_pairwise_lt _ hnd1)
  haveI : IsAntisymm (List Char) (fun k1 k2 =>
      (lastIdxFrom 0 (sel.map (fun c => (stripWS c).map Char.toLower)) k1).getD 0 <
      (lastIdxFrom 0 (sel.map (fun c => (stripWS c).map Char.toLower)) k2).getD 0) :=
    ⟨fun a b h1 h2 => absurd h2 (by omega)⟩
  exact List.eq_of_perm_of_sorted hMT hMsorted_lt hTsorted_lt

/-! ### Trace invariant of the keyset loop -/

theorem migrate_entry_keyset_wf (src : List KRow) (dir : Dir)
    (tf : List KRow → List KRow) (limit : Nat) :
    ∀ (fuel : Nat) (cur : Option (Int × Int)),
      KStepsWF src dir tf limit cur
        (migrate_entry_keyset src dir tf limit cur fuel).1 := by
  intro fuel
  induction fuel with
  | zero =>
    intro cur
    exact trivial
  | succ n ih =>
    intro cur
    rw [migrate_entry_keyset]
    by_cases hrows :
        (fetch_keyset_chunk_generic src dir (cur.map Prod.fst) (cur.map Prod.snd)
          limit).isEmpty = true
    · simp only [hrows, if_true]
      exact trivial
    · simp only [hrows, if_false]
      cases hlast :
          (tf (fetch_keyset_chunk_generic src dir (cur.map Prod.fst) (cur.map Prod.snd)
            limit)).getLast? with
      | none =>
        exact trivial
      | some last =>
        refine ⟨rfl, rfl, rfl, ⟨last, hlast, rfl⟩, ?_⟩
        exact ih (some (last.sortv, last.uniqv))

/-! ### Option-mapM lemmas for the bulk-insert record builder -/

theorem mapOption_some_of_forall {α β : Type} (f : α → Option β) :
    ∀ l : List α, (∀ a ∈ l, (f a).isSome = true) → ∃ ys, mapOption f l = some ys := by
  intro l
  induction l with
  | nil => intro _; exact ⟨[], rfl⟩
  | cons a t ih =>
    intro h
    obtain ⟨b, hb⟩ := Option.isSome_iff_exists.mp (h a (List.mem_cons_self _ _))
    obtain ⟨ys, hys⟩ := ih (fun x hx => h x (List.mem_cons_of_mem _ hx))
    exact ⟨b :: ys, by rw [mapOption, hb, hys]⟩

theorem mapOption_none_of_mem {α β : Type} (f : α → Option β) :
    ∀ (l : List α) (a : α), a ∈ l → f a = none → mapOption f l = none := by
  intro l
  induction l with
  | nil => intro a ha; simp at ha
  | cons x t ih =>
    intro a ha hf
    rcases List.mem_cons.mp ha with h | h
    · subst h
      rw [mapOption, hf]
    · cases hx : f x with
      | none => rw [mapOption, hx]
      | some b => rw [mapOption, hx, ih a h hf]

/-! ### Claim theorems -/

set_option maxRecDepth 100000 in
/-- Claim C1 (falsified by data_loader_ext.py — evidence for the code bug):
the claim says a failed fetch/insert leaves the stored Resume Position
exactly at the last durably written chunk boundary, with no rewinding
checkpoint write on the failure path.  `data_loader.py`'s loop conforms
(its `except` branch only re-raises), but `data_loader_ext.py:328` writes
`max(0, offset - CHUNK_SIZE)` before re-raising.  Concretely: 1000 source
rows, fresh start, chunk 1 (rows 0-499) inserted and checkpoint 500
durably written, then the insert of chunk 2 exhausts its retries — the
failure path REWINDS the checkpoint to `max(0, 500 - 500) = 0`, so the
write sequence is `[500, 0]` and the stored offset after the failed run
is 0, not 500. -/
theorem ext_migrate_failure_rewinds_checkpoint :
    ext_migrate_table (List.range 1000) CHUNK_SIZE
        (fun n => if n = 1 then StepEnv.insertFail else StepEnv.ok) 5
        (CkptFile.missing : CkptFile Nat) 0 =
      ⟨true, 0, [500, 0], List.range 500, .failed⟩ := by
  decide

/-- Claim C2 (falsified by data_loader_ext.py — evidence for the code bug):
the claim says a non-fresh Resume Position skips schema setup entirely, so
resuming never drops the partially loaded target.  `data_loader.py:303`
conforms (`if offset == 0 and recreate`), but `data_loader_ext.py`'s
`migrate_table` runs extract + `DROP TABLE ... CASCADE` + `CREATE TABLE`
unconditionally and only then reads the checkpoint.  Concretely: stored
offset 3, 5 source rows — the target is dropped and recreated, the loop
resumes at offset 3, and the final target holds only rows 3 and 4; rows
0-2 are permanently lost. -/
theorem ext_migrate_resume_drops_target :
    ext_migrate_table (List.range 5) 2 allOk 10
        (CkptFile.parsed [((0 : Nat), CkptVal.num 3)]) 0 =
      ⟨true, 3, [5, 0], [3, 4], .success⟩ ∧
    (0 : Nat) ∉ (ext_migrate_table (List.range 5) 2 allOk 10
        (CkptFile.parsed [((0 : Nat), CkptVal.num 3)]) 0).targetRows := by
  decide

/-- Claim C3 (confirmed): in the keyset branch of `migrate_entry`, the
first chunk is fetched with an ordered, limited query carrying no cursor
predicate; every subsequent chunk is fetched with the predicate
`(sort > lastSort) OR (sort = lastSort AND unique > lastUnique)` (with
`<` for descending order) under the same ordering and limit; and after
each successful insert the checkpointed cursor is the (sort, unique) pair
of the last row of the chunk actually inserted (after the transform
chain), which then becomes the next fetch's predicate cursor. -/
theorem migrate_entry_keyset_cursor_correct :
    (∀ (src : List KRow) (dir : Dir) (tf : List KRow → List KRow)
      (limit fuel : Nat) (cur : Option (Int × Int)),
      KStepsWF src dir tf limit cur
        (migrate_entry_keyset src dir tf limit cur fuel).1) ∧
    (∀ (src : List KRow) (dir : Dir) (limit : Nat),
      fetch_keyset_chunk_generic src dir none none limit =
        (src.mergeSort (keysetLE dir)).take limit) ∧
    (∀ (src : List KRow) (dir : Dir) (ls lu : Int) (limit : Nat),
      fetch_keyset_chunk_generic src dir (some ls) (some lu) limit =
        ((src.filter (cursorPred dir ls lu)).mergeSort (keysetLE dir)).take limit) ∧
    (∀ (r : KRow) (ls lu : Int),
      (cursorPred .asc ls lu r = true ↔
        r.sortv > ls ∨ (r.sortv = ls ∧ r.uniqv > lu)) ∧
      (cursorPred .desc ls lu r = true ↔
        r.sortv < ls ∨ (r.sortv = ls ∧ r.uniqv < lu))) := by
  refine ⟨fun src dir tf limit fuel cur => migrate_entry_keyset_wf src dir tf limit fuel cur,
    fun _ _ _ => rfl, fun _ _ _ _ _ => rfl, fun r ls lu => ⟨?_, ?_⟩⟩
  · simp [cursorPred]
  · simp [cursorPred]

/-- Claim C4 (confirmed, Scenario A): one sort column, batch size 2, fresh
checkpoint, 5 source rows, every operation succeeding — the offset
strategy's chunk-yielding fetches are at offsets 0, 2, 4 (the fetch at
offset 5 returns no rows and is how exhaustion is detected), the
checkpoints written after each successful chunk are 2, 4, 5, and on
exhaustion the checkpoint is reset to 0 (fresh), which is what a
subsequent read returns. -/
theorem offset_pagination_scenarioA :
    ((migrate_table_run (List.range 5) 2 [['i','d']] true allOk 10
        (CkptFile.missing : CkptFile Nat) 0).fetches.filter
        (fun f => decide (f.2 ≠ 0))).map Prod.fst = [0, 2, 4] ∧
    (migrate_table_run (List.range 5) 2 [['i','d']] true allOk 10
        (CkptFile.missing : CkptFile Nat) 0).fetches = [(0, 2), (2, 2), (4, 1), (5, 0)] ∧
    (migrate_table_run (List.range 5) 2 [['i','d']] true allOk 10
        (CkptFile.missing : CkptFile Nat) 0).writes = [2, 4, 5, 0] ∧
    (migrate_table_run (List.range 5) 2 [['i','d']] true allOk 10
        (CkptFile.missing : CkptFile Nat) 0).outcome = .success ∧
    read_checkpoint_keyed
      (migrate_table_run (List.range 5) 2 [['i','d']] true allOk 10
        (CkptFile.missing : CkptFile Nat) 0).store 0 = some 0 := by
  decide

/-- Claim C5, counterexample: a requested column (`Nope`) that does not
exist among the source's columns does NOT make the schema translation
fail — `extract_sqlserver_schema` silently filters it away and proceeds,
emitting a DDL that simply omits it (here: just `"id" integer NOT NULL`).
No `ConfigError` (or any exception) is raised anywhere on this path. -/
theorem extract_schema_missing_requested_column_proceeds :
    extract_sqlserver_schema_cols
      [⟨['I','d'], ['i','n','t'], true, none⟩]
      (some [['I','d'], ['N','o','p','e']]) =
      [⟨['i','d'], PgType.integer, true⟩] := by
  have hfilter : List.filter
      (fun r => (want_lc_index ([['I','d'], ['N','o','p','e']].map stripWS) r.colName).isSome)
      [(⟨['I','d'], ['i','n','t'], true, none⟩ : SrcCol)] =
      [⟨['I','d'], ['i','n','t'], true, none⟩] := by decide
  have hsel : selectRows [⟨['I','d'], ['i','n','t'], true, none⟩]
      [['I','d'], ['N','o','p','e']] = [⟨['I','d'], ['i','n','t'], true, none⟩] := by
    show (List.filter _ _).mergeSort _ = _
    rw [hfilter, List.mergeSort_singleton]
  show (selectRows _ _).map _ = _
  rw [hsel]
  decide

/-- Claim C5 as amended: with an explicit non-empty requested subset whose
lowercased stripped names are duplicate-free (and likewise duplicate-free
lowercased catalog names), the translation retains exactly the requested
names THAT EXIST in the source, matched case-insensitively and reordered
to the requested order, and emits one normalized DDL column per retained
row; a requested name with no matching source column is silently dropped
instead of raising. -/
theorem extract_schema_subset_retained (rows : List SrcCol) (sel : List (List Char))
    (hne : sel ≠ [])
    (hnd1 : (sel.map (fun c => (stripWS c).map Char.toLower)).Nodup)
    (hnd2 : (rows.map (fun r => r.colName.map Char.toLower)).Nodup) :
    (extract_sqlserver_schema_cols rows (some sel)).map DdlCol.colName =
      (selectRows rows sel).map (fun r => normalizeCol r.colName) ∧
    (selectRows rows sel).map (fun r => r.colName.map Char.toLower) =
      (sel.map (fun c => (stripWS c).map Char.toLower)).filter
        (fun k => k ∈ rows.map (fun r => r.colName.map Char.toLower)) := by
  constructor
  · have hempty : sel.isEmpty = false := by
      cases sel with
      | nil => exact absurd rfl hne
      | cons a t => rfl
    show ((if sel.isEmpty then rows else selectRows rows sel).map _).map _ = _
    rw [hempty]
    simp only [if_false, List.map_map]
    rfl
  · exact selectRows_retained rows sel hnd1 hnd2

theorem extract_schema_subset_retained_witness :
    (extract_sqlserver_schema_cols
        [⟨['I','d'], ['i','n','t'], true, none⟩,
          ⟨['N','a','m','e'], ['v','a','r','c','h','a','r'], false, some 50⟩]
        (some [['n','a','m','e'], ['i','d'], ['g','o','n','e']])).map DdlCol.colName =
      (selectRows
        [⟨['I','d'], ['i','n','t'], true, none⟩,
          ⟨['N','a','m','e'], ['v','a','r','c','h','a','r'], false, some 50⟩]
        [['n','a','m','e'], ['i','d'], ['g','o','n','e']]).map
          (fun r => normalizeCol r.colName) ∧
    (selectRows
        [⟨['I','d'], ['i','n','t'], true, none⟩,
          ⟨['N','a','m','e'], ['v','a','r','c','h','a','r'], false, some 50⟩]
        [['n','a','m','e'], ['i','d'], ['g','o','n','e']]).map
          (fun r => r.colName.map Char.toLower) =
      ([['n','a','m','e'], ['i','d'], ['g','o','n','e']].map
          (fun c => (stripWS c).map Char.toLower)).filter
        (fun k => k ∈
          [(⟨['I','d'], ['i','n','t'], true, none⟩ : SrcCol),
            ⟨['N','a','m','e'], ['v','a','r','c','h','a','r'], false, some 50⟩].map
            (fun r => r.colName.map Char.toLower)) :=
  extract_schema_subset_retained
    [⟨['I','d'], ['i','n','t'], true, none⟩,
      ⟨['N','a','m','e'], ['v','a','r','c','h','a','r'], false, some 50⟩]
    [['n','a','m','e'], ['i','d'], ['g','o','n','e']]
    (by decide) (by decide) (by decide)

/-- Claim C6, counterexample: a job with 0 sort columns does NOT leave the
checkpoint store untouched — `migrate_table` (data_loader.py:372) performs
its unconditional completion write of 0, so the job's entry is created or
overwritten: starting from a store holding 7 for the key, the run writes
`[0]` and the store afterwards maps the key to 0, not 7. -/
theorem migrate_table_unsorted_writes_checkpoint :
    (migrate_table_run ([1, 2, 3] : List Nat) CHUNK_SIZE [] true allOk 1
      (CkptFile.parsed [((0 : Nat), CkptVal.num 7)]) 0).writes = [0] ∧
    (migrate_table_run ([1, 2, 3] : List Nat) CHUNK_SIZE [] true allOk 1
      (CkptFile.parsed [((0 : Nat), CkptVal.num 7)]) 0).store =
      CkptFile.parsed [((0 : Nat), CkptVal.num 0)] ∧
    CkptFile.parsed [((0 : Nat), CkptVal.num 0)] ≠
      CkptFile.parsed [((0 : Nat), CkptVal.num 7)] := by
  decide

/-- Claim C6 as amended: for a job with 0 sort columns, whenever the
stored entry for the job's key reads back as an integer (the case where
`int(data.get(key, 0))` does not raise — a keyset-pair entry instead
aborts the run before any fetch or write), the run emits the
non-determinism warning exactly once, performs exactly one single-shot
fetch and no paged fetches, and its ONLY checkpoint activity is the
unconditional completion write of 0 — the store afterwards is the input
store with the job's entry set to 0. -/
theorem migrate_table_unsorted_single_fetch {K α : Type} [DecidableEq K]
    (src : List α) (c : Nat) (recreate : Bool) (fuel : Nat)
    (f₀ : CkptFile K) (k : K) (off : Int)
    (h : read_checkpoint_keyed f₀ k = some off) :
    (migrate_table_run src c [] recreate allOk fuel f₀ k).nondetWarnings = 1 ∧
    (migrate_table_run src c [] recreate allOk fuel f₀ k).singleFetches = 1 ∧
    (migrate_table_run src c [] recreate allOk fuel f₀ k).fetches = [] ∧
    (migrate_table_run src c [] recreate allOk fuel f₀ k).writes = [0] ∧
    (migrate_table_run src c [] recreate allOk fuel f₀ k).store =
      write_checkpoint_keyed f₀ k 0 ∧
    (migrate_table_run src c [] recreate allOk fuel f₀ k).outcome = .success := by
  have hrun : migrate_table_run src c [] recreate allOk fuel f₀ k =
      ⟨1, 1, decide (off = 0) && recreate, [], [0], src,
        applyWrites f₀ k [0], .success⟩ := by
    unfold migrate_table_run
    rw [h]
    rfl
  rw [hrun]
  exact ⟨rfl, rfl, rfl, rfl, rfl, rfl⟩

theorem migrate_table_unsorted_single_fetch_witness :
    read_checkpoint_keyed (CkptFile.parsed [((0 : Nat), CkptVal.num 7)]) 0 = some 7 ∧
    ((migrate_table_run ([1, 2, 3] : List Nat) CHUNK_SIZE [] true allOk 1
        (CkptFile.parsed [((0 : Nat), CkptVal.num 7)]) 0).nondetWarnings = 1 ∧
      (migrate_table_run ([1, 2, 3] : List Nat) CHUNK_SIZE [] true allOk 1
        (CkptFile.parsed [((0 : Nat), CkptVal.num 7)]) 0).singleFetches = 1 ∧
      (migrate_table_run ([1, 2, 3] : List Nat) CHUNK_SIZE [] true allOk 1
        (CkptFile.parsed [((0 : Nat), CkptVal.num 7)]) 0).fetches = [] ∧
      (migrate_table_run ([1, 2, 3] : List Nat) CHUNK_SIZE [] true allOk 1
        (CkptFile.parsed [((0 : Nat), CkptVal.num 7)]) 0).writes = [0] ∧
      (migrate_table_run ([1, 2, 3] : List Nat) CHUNK_SIZE [] true allOk 1
        (CkptFile.parsed [((0 : Nat), CkptVal.num 7)]) 0).store =
        write_checkpoint_keyed (CkptFile.parsed [((0 : Nat), CkptVal.num 7)]) 0 0 ∧
      (migrate_table_run ([1, 2, 3] : List Nat) CHUNK_SIZE [] true allOk 1
        (CkptFile.parsed [((0 : Nat), CkptVal.num 7)]) 0).outcome = .success) :=
  ⟨by decide, migrate_table_unsorted_single_fetch ([1, 2, 3] : List Nat) CHUNK_SIZE true 1
    (CkptFile.parsed [((0 : Nat), CkptVal.num 7)]) 0 7 (by decide)⟩

/-- Claim C7 (confirmed): for every job key, reading the checkpoint
returns the fresh-start value instead of raising in all three cases —
missing backing file, unreadable/corrupt (non-JSON) file, and a parsed
file with no entry for the key.  This holds for both
`read_checkpoint_keyed` (data_loader.py, which returns the integer 0) and
`read_checkpoint` (data_loader_ext.py, which returns the raw default 0). -/
theorem checkpoint_read_fails_open :
    ∀ (K : Type) [inst : DecidableEq K] (k : K),
      read_checkpoint_keyed (CkptFile.missing : CkptFile K) k = some 0 ∧
      read_checkpoint_keyed (CkptFile.corrupt : CkptFile K) k = some 0 ∧
      (∀ d : List (K × CkptVal), dictGet d k = none →
        read_checkpoint_keyed (CkptFile.parsed d) k = some 0) ∧
      ext_read_checkpoint (CkptFile.missing : CkptFile K) k = .num 0 ∧
      ext_read_checkpoint (CkptFile.corrupt : CkptFile K) k = .num 0 ∧
      (∀ d : List (K × CkptVal), dictGet d k = none →
        ext_read_checkpoint (CkptFile.parsed d) k = .num 0) := by
  intro K inst k
  refine ⟨rfl, rfl, ?_, rfl, rfl, ?_⟩
  · intro d hd
    simp [read_checkpoint_keyed, read_ckpt_file, hd]
  · intro d hd
    simp [ext_read_checkpoint, hd]

theorem checkpoint_read_fails_open_witness :
    read_checkpoint_keyed (CkptFile.missing : CkptFile Nat) 0 = some 0 ∧
    read_checkpoint_keyed (CkptFile.corrupt : CkptFile Nat) 0 = some 0 ∧
    read_checkpoint_keyed (CkptFile.parsed [(1, CkptVal.num 5)]) 0 = some 0 ∧
    ext_read_checkpoint (CkptFile.missing : CkptFile Nat) 0 = .num 0 ∧
    ext_read_checkpoint (CkptFile.corrupt : CkptFile Nat) 0 = .num 0 ∧
    ext_read_checkpoint (CkptFile.parsed [(1, CkptVal.num 5)]) 0 = .num 0 := by
  have h := checkpoint_read_fails_open Nat 0
  exact ⟨h.1, h.2.1, h.2.2.1 [(1, CkptVal.num 5)] (by decide), h.2.2.2.1,
    h.2.2.2.2.1, h.2.2.2.2.2 [(1, CkptVal.num 5)] (by decide)⟩

/-- Claim C8, counterexample: `normalize_col` is NOT idempotent.  For the
62 `a`s followed by `-bb`, the first normalization gives 62 `a`s and a
trailing underscore (the `[:63]` truncation runs AFTER `strip('_')`, so
the cut can land just past a separator), and normalizing that again
strips the trailing underscore, giving a different, 62-character
result. -/
theorem normalizeCol_truncation_breaks_idempotence :
    normalizeCol (normalizeCol (List.replicate 62 'a' ++ ['-', 'b', 'b'])) ≠
      normalizeCol (List.replicate 62 'a' ++ ['-', 'b', 'b']) := by
  decide

/-- Claim C8 as amended: `normalize_col` is idempotent on every input
whose normalized form does not end in an underscore — a trailing
underscore can only be produced by the 63-character truncation cutting
directly after a word separator, and renormalizing such a value strips
it.  The second half holds unconditionally: any two names with the same
lowercased maximal alphanumeric words — i.e. differing only in letter
case or in the choice/run-length of the non-alphanumeric punctuation
separating the words — normalize to the same identifier. -/
theorem normalizeCol_idem_and_word_invariant :
    (∀ s : List Char, (normalizeCol s).getLast? ≠ some '_' →
      normalizeCol (normalizeCol s) = normalizeCol s) ∧
    (∀ s t : List Char, wordsLower s = wordsLower t →
      normalizeCol s = normalizeCol t) := by
  constructor
  · intro s h
    exact normalizeCol_idem_of_no_trailing_us h
  · intro s t h
    rw [normalizeCol_eq_take_joinUS, normalizeCol_eq_take_joinUS, h]

theorem normalizeCol_idem_and_word_invariant_witness :
    normalizeCol (normalizeCol ['A', '-', 'b']) = normalizeCol ['A', '-', 'b'] ∧
    normalizeCol ['A', '_', 'b'] = normalizeCol ['a', '-', '-', 'B'] :=
  ⟨normalizeCol_idem_and_word_invariant.1 ['A', '-', 'b'] (by decide),
    normalizeCol_idem_and_word_invariant.2 ['A', '_', 'b'] ['a', '-', '-', 'B'] (by decide)⟩

/-- Claim C9 (confirmed): for a non-empty chunk, `insert_chunk_pg`
determines the target columns solely from the keys of the chunk's first
row (normalized); when every row has at least those keys the insert
succeeds with exactly that column list (extra keys in later rows are
never consulted), and when some row lacks one of the first row's keys the
record builder raises `KeyError` — before `copy_records_to_table` runs,
so nothing is written — which the all-keys-present precondition renders
unreachable. -/
theorem insert_chunk_pg_columns_from_first_row {V : Type} :
    (∀ (r0 : List (List Char × V)) (rest : List (List (List Char × V))),
      (∀ row ∈ r0 :: rest, ∀ k ∈ r0.map Prod.fst, (rowGet row k).isSome = true) →
      ∃ recs, insert_chunk_pg (r0 :: rest) =
        .ok ((r0.map Prod.fst).map normalizeCol, recs, (r0 :: rest).length)) ∧
    (∀ (r0 : List (List Char × V)) (rest : List (List (List Char × V)))
      (row : List (List Char × V)) (k : List Char),
      row ∈ r0 :: rest → k ∈ r0.map Prod.fst → rowGet row k = none →
      insert_chunk_pg (r0 :: rest) = .error ()) := by
  constructor
  · intro r0 rest h
    have hinner : ∀ row ∈ r0 :: rest,
        ((fun row => mapOption (fun c => rowGet row c) (r0.map Prod.fst)) row).isSome = true := by
      intro row hrow
      obtain ⟨ys, hys⟩ :=
        mapOption_some_of_forall (fun c => rowGet row c) (r0.map Prod.fst) (h row hrow)
      simp [hys]
    obtain ⟨recs, hrecs⟩ := mapOption_some_of_forall _ (r0 :: rest) hinner
    refine ⟨recs, ?_⟩
    show (match mapOption (fun row => mapOption (fun c => rowGet row c) (r0.map Prod.fst))
        (r0 :: rest) with
      | none => Except.error ()
      | some recs => Except.ok ((r0.map Prod.fst).map normalizeCol, recs,
          (r0 :: rest).length)) = _
    rw [hrecs]
  · intro r0 rest row k hrow hk hnone
    have hinner : mapOption (fun c => rowGet row c) (r0.map Prod.fst) = none :=
      mapOption_none_of_mem _ (r0.map Prod.fst) k hk hnone
    have houter : mapOption (fun row => mapOption (fun c => rowGet row c) (r0.map Prod.fst))
        (r0 :: rest) = none :=
      mapOption_none_of_mem _ (r0 :: rest) row hrow hinner
    show (match mapOption (fun row => mapOption (fun c => rowGet row c) (r0.map Prod.fst))
        (r0 :: rest) with
      | none => Except.error ()
      | some recs => Except.ok ((r0.map Prod.fst).map normalizeCol, recs,
          (r0 :: rest).length)) = _
    rw [houter]

theorem insert_chunk_pg_columns_from_first_row_witness :
    insert_chunk_pg [[(['I','d'], (1 : Int))],
        [(['I','d'], 2), (['e','x','t','r','a'], 9)]] =
      .ok ([['i','d']], [[1], [2]], 2) ∧
    insert_chunk_pg [[(['I','d'], (1 : Int))], [(['o','t','h','e','r'], 2)]] =
      .error () := by
  constructor
  · rfl
  · exact (@insert_chunk_pg_columns_from_first_row Int).2
      [(['I','d'], (1 : Int))] [[(['o','t','h','e','r'], 2)]]
      [(['o','t','h','e','r'], 2)] ['I','d'] (by simp) (by decide) (by decide)

/-- Claim C10 (confirmed): writing a new offset for one job key leaves
every other key's entry exactly as it was, and a subsequent read for the
written key returns the offset just written.  For `write_checkpoint_keyed`
this holds for every store state (on a missing or corrupt file the prior
value of every key was the fail-open 0, and so it remains).  For the ext
`write_checkpoint` it holds for every write that completes (an existing
corrupt file makes that variant raise instead of writing, so there is no
completed write to reason about). -/
theorem checkpoint_write_frame :
    ∀ (K : Type) [inst : DecidableEq K] (f : CkptFile K) (k k' : K) (v : Int),
      read_checkpoint_keyed (write_checkpoint_keyed f k v) k = some v ∧
      (k' ≠ k →
        read_checkpoint_keyed (write_checkpoint_keyed f k v) k' =
          read_checkpoint_keyed f k') ∧
      (k' ≠ k → ∀ d, f = .parsed d →
        dictGet (read_ckpt_file (write_checkpoint_keyed f k v)) k' = dictGet d k') ∧
      (∀ f', ext_write_checkpoint f k v = .ok f' →
        ext_read_checkpoint f' k = .num v ∧
        (k' ≠ k → ext_read_checkpoint f' k' = ext_read_checkpoint f k')) := by
  intro K inst f k k' v
  refine ⟨?_, ?_, ?_, ?_⟩
  · show (match dictGet (dictSet (read_ckpt_file f) k (.num v)) k with
      | none => some 0
      | some (.num n) => some n
      | some (.pair _ _) => none) = some v
    rw [dictGet_dictSet_same]
  · intro hne
    show (match dictGet (dictSet (read_ckpt_file f) k (.num v)) k' with
      | none => some 0
      | some (.num n) => some n
      | some (.pair _ _) => none) = _
    rw [dictGet_dictSet_ne _ _ _ _ hne]
    cases f with
    | missing => rfl
    | corrupt => rfl
    | parsed d => rfl
  · intro hne d hd
    subst hd
    show dictGet (dictSet d k (.num v)) k' = dictGet d k'
    exact dictGet_dictSet_ne _ _ _ _ hne
  · intro f' hf'
    cases f with
    | missing =>
      have : f' = .parsed (dictSet [] k (.num v)) := by
        injection hf' with h
        exact h.symm
      subst this
      constructor
      · show (dictGet (dictSet [] k (.num v)) k).getD (.num 0) = .num v
        rw [dictGet_dictSet_same]
        rfl
      · intro hne
        show (dictGet (dictSet [] k (.num v)) k').getD (.num 0) = .num 0
        rw [dictGet_dictSet_ne _ _ _ _ hne]
        rfl
    | corrupt =>
      exact absurd hf' (by simp [ext_write_checkpoint])
    | parsed d =>
      have : f' = .parsed (dictSet d k (.num v)) := by
        injection hf' with h
        exact h.symm
      subst this
      constructor
      · show (dictGet (dictSet d k (.num v)) k).getD (.num 0) = .num v
        rw [dictGet_dictSet_same]
        rfl
      · intro hne
        show (dictGet (dictSet d k (.num v)) k').getD (.num 0) =
          (dictGet d k').getD (.num 0)
        rw [dictGet_dictSet_ne _ _ _ _ hne]

theorem checkpoint_write_frame_witness :
    read_checkpoint_keyed
      (write_checkpoint_keyed (CkptFile.parsed [(1, CkptVal.num 5)]) (0 : Nat) 9) 0 =
      some 9 ∧
    read_checkpoint_keyed
      (write_checkpoint_keyed (CkptFile.parsed [(1, CkptVal.num 5)]) (0 : Nat) 9) 1 =
      read_checkpoint_keyed (CkptFile.parsed [(1, CkptVal.num 5)]) 1 ∧
    dictGet (read_ckpt_file
      (write_checkpoint_keyed (CkptFile.parsed [(1, CkptVal.num 5)]) (0 : Nat) 9)) 1 =
      dictGet [(1, CkptVal.num 5)] 1 ∧
    ext_read_checkpoint (CkptFile.parsed [(1, CkptVal.num 5), (0, CkptVal.num 9)])
      (0 : Nat) = .num 9 ∧
    ext_read_checkpoint (CkptFile.parsed [(1, CkptVal.num 5), (0, CkptVal.num 9)])
      (1 : Nat) = ext_read_checkpoint (CkptFile.parsed [(1, CkptVal.num 5)]) 1 := by
  have h := checkpoint_write_frame Nat (CkptFile.parsed [(1, CkptVal.num 5)]) 0 1 9
  have h4 := h.2.2.2 (CkptFile.parsed [(1, CkptVal.num 5), (0, CkptVal.num 9)]) rfl
  exact ⟨h.1, h.2.1 (by decide), h.2.2.1 (by decide) [(1, CkptVal.num 5)] rfl,
    h4.1, h4.2 (by decide)⟩
